import Mathlib

/-!
# go-todo: the in-memory store and the HTTP response encoders

A shallow embedding of `todo/service.go` (the `inmemService` store) and of the
encoding half of `todo/transport.go` / `todo/endpoint.go`, followed by theorems
about them.

Modelling conventions.

* Go `int` is modelled by `Int`.  The only arithmetic in the package is
  `s.nextID++`; the counter starts at 1 and every increment also adds one entry
  to the map, so reaching the wrap-around of a 64-bit (or 32-bit) `int` needs
  more map entries than the address space can hold.
* `sync.Mutex`: every method takes `s.mu` on entry and releases it on return.
  For the sequential theorems a method body is one transition of the store.
  For concurrent callers of `CreateTodo` the mutex is modelled explicitly: the
  body is cut into its statements, goroutines interleave statement by
  statement, and `Lock` can only be passed while the mutex is free.
* `map[int]Todo` is a list of key/value pairs.  `v, ok := m[k]` is `mapLookup`,
  `m[k] = v` is `mapStore`.  The order of the list is NOT the order in which
  `range` visits the map: `range` over a Go map visits the entries in an
  unspecified order, so `Todos` is given the order as an argument and the
  theorems quantify over every order.
* `error` values are `GoError`, described by what `errors.Is` can observe of
  them (the `Unwrap` tree and the `Is` methods); a nil error is `none`.
-/

namespace GoTodo

/-! ## service.go -/

/-- Todo represents a Todo task (`type Todo struct`). -/
structure Todo where
  ID : Int
  Description : String
  Completed : Bool
deriving DecidableEq, Repr

/-- The zero value `Todo{}`. -/
def Todo.zero : Todo := ⟨0, "", false⟩

/-- Error values that can reach the package: `MakeRoutes` is exported and takes
any `Service`, so the encoders can be handed any Go error.  `ErrInvalidID` and
`ErrTodoNotFound` are the two package-level sentinels of service.go,
`errBadRouting` the one of endpoint.go (each made by `errors.New`, hence without
an `Unwrap` or `Is` method and equal only to itself).  The other constructors
describe an error value by what `errors.Is` can observe of it; `msg` is what
`Error()` returns.
* `foreign msg`: no `Unwrap` and no `Is` method (a JSON syntax error, ...);
* `wrap msg inner`: a method `Unwrap() error` returning `inner` (a
  `strconv.NumError`, an error made with one verb `%w`, ...);
* `join msg errs`: a method `Unwrap() []error` returning `errs` (the result of
  `errors.Join`, an error made with several verbs `%w`);
* `withIs msg accepts unwrap`: an error type with a method `Is(error) bool`
  that reports true exactly for the targets listed in `accepts`, and whose
  `Unwrap` gives `unwrap` (the empty list when it has none or returns nil, one
  element for `Unwrap() error`). -/
inductive GoError where
  | ErrInvalidID
  | ErrTodoNotFound
  | errBadRouting
  | foreign (msg : String)
  | wrap (msg : String) (inner : GoError)
  | join (msg : String) (errs : List GoError)
  | withIs (msg : String) (accepts : List GoError) (unwrap : List GoError)
deriving Repr

/-- The `Error()` method. -/
def GoError.Error : GoError → String
  | .ErrInvalidID => "invalid id, must be non-negative"
  | .ErrTodoNotFound => "todo not found"
  | .errBadRouting => "bad routing"
  | .foreign msg => msg
  | .wrap msg _ => msg
  | .join msg _ => msg
  | .withIs msg _ _ => msg

mutual
/-- The comparison `err == target` of two error values.  The model keeps no
identity for values other than the three sentinels, so it is structural; the
package only ever compares with a sentinel, which is equal to itself alone. -/
def GoError.same : GoError → GoError → Bool
  | .ErrInvalidID, .ErrInvalidID => true
  | .ErrTodoNotFound, .ErrTodoNotFound => true
  | .errBadRouting, .errBadRouting => true
  | .foreign m1, .foreign m2 => m1 == m2
  | .wrap m1 e1, .wrap m2 e2 => m1 == m2 && GoError.same e1 e2
  | .join m1 l1, .join m2 l2 => m1 == m2 && GoError.sameList l1 l2
  | .withIs m1 a1 u1, .withIs m2 a2 u2 =>
    m1 == m2 && GoError.sameList a1 a2 && GoError.sameList u1 u2
  | _, _ => false
/-- The comparison of two lists of error values, element by element. -/
def GoError.sameList : List GoError → List GoError → Bool
  | [], [] => true
  | a :: as, b :: bs => GoError.same a b && GoError.sameList as bs
  | _, _ => false
end

/-- The lookup `v, ok := m[k]` of a Go map. -/
def mapLookup : List (Int × Todo) → Int → Option Todo
  | [], _ => none
  | (k, v) :: rest, id => if k = id then some v else mapLookup rest id

/-- The assignment `m[k] = v` of a Go map: an existing entry for `k` is
replaced, otherwise a new entry is added. -/
def mapStore : List (Int × Todo) → Int → Todo → List (Int × Todo)
  | [], id, v => [(id, v)]
  | (k, w) :: rest, id, v =>
    if k = id then (id, v) :: rest else (k, w) :: mapStore rest id v

/-- The store `inmemService` (the mutex is implicit, see the header). -/
structure inmemService where
  nextID : Int
  todos : List (Int × Todo)
deriving DecidableEq, Repr

/-- NewInmemService returns an in memory implementation of Service. -/
def NewInmemService : inmemService :=
  { nextID := 1, todos := [] }

/-- Todo implements Service: `Todo(ctx, id)`. -/
def inmemService.Todo (s : inmemService) (id : Int) : GoTodo.Todo × Option GoError :=
  if id < 0 then
    (Todo.zero, some GoError.ErrInvalidID)
  else
    match mapLookup s.todos id with
    | some todo => (todo, none)
    | none => (Todo.zero, none)

/-- Insertion of one element into a slice ordered by `less`. -/
def insertOrdered {α : Type} (less : α → α → Bool) (x : α) : List α → List α
  | [] => [x]
  | y :: ys => if less x y then x :: y :: ys else y :: insertOrdered less x ys

/-- The library call `sort.Slice(xs, less)`, as an insertion sort.  The library
only promises a reordering of `xs` in which no element is `less` than one
before it; `sortSlice_unique` below shows that for the `less` used by `Todos`
and pairwise distinct IDs that promise leaves one possible result. -/
def sortSlice {α : Type} (less : α → α → Bool) (xs : List α) : List α :=
  xs.foldr (insertOrdered less) []

/-- The comparison `todos[i].ID < todos[j].ID` handed to `sort.Slice`. -/
def lessByID (a b : Todo) : Bool :=
  decide (a.ID < b.ID)

/-- The body of `Todos` for one iteration order `order` of the map:
`for _, v := range s.todos`, `append`, then `sort.Slice` by ID. -/
def TodosRange (order : List (Int × Todo)) : List Todo × Option GoError :=
  let todos := order.foldl (fun acc kv => acc ++ [kv.2]) []
  (sortSlice lessByID todos, none)

/-- Todos implements Service, for the iteration order in which the entries are
listed in the model. -/
def inmemService.Todos (s : inmemService) : List GoTodo.Todo × Option GoError :=
  TodosRange s.todos

/-- The helper `generateID`: returns `s.nextID`, the deferred function then
increments the counter. -/
def inmemService.generateID (s : inmemService) : Int × inmemService :=
  (s.nextID, { s with nextID := s.nextID + 1 })

/-- CreateTodo implements Service. -/
def inmemService.CreateTodo (s : inmemService) (desc : String) :
    inmemService × Option GoError :=
  let r := s.generateID
  let todo : GoTodo.Todo := { ID := r.1, Description := desc, Completed := false }
  ({ r.2 with todos := mapStore r.2.todos todo.ID todo }, none)

/-- UpdateTodo implements Service. -/
def inmemService.UpdateTodo (s : inmemService) (id : Int) (desc : String) :
    inmemService × Option GoError :=
  match mapLookup s.todos id with
  | none => (s, some GoError.ErrTodoNotFound)
  | some todo =>
    ({ s with todos := mapStore s.todos id { todo with Description := desc } }, none)

/-- SetCompletedStatus implements Service. -/
def inmemService.SetCompletedStatus (s : inmemService) (id : Int) (completed : Bool) :
    inmemService × Option GoError :=
  match mapLookup s.todos id with
  | none => (s, some GoError.ErrTodoNotFound)
  | some todo =>
    ({ s with todos := mapStore s.todos id { todo with Completed := completed } }, none)

/-! ### Sequences of calls -/

/-- One call of the `Service` interface. -/
inductive Call where
  | Todo (id : Int)
  | Todos
  | CreateTodo (desc : String)
  | UpdateTodo (id : Int) (desc : String)
  | SetCompletedStatus (id : Int) (completed : Bool)
deriving DecidableEq, Repr

/-- The store after one call (`Todo` and `Todos` only read). -/
def inmemService.step (s : inmemService) : Call → inmemService
  | .Todo _ => s
  | .Todos => s
  | .CreateTodo desc => (s.CreateTodo desc).1
  | .UpdateTodo id desc => (s.UpdateTodo id desc).1
  | .SetCompletedStatus id completed => (s.SetCompletedStatus id completed).1

/-- The store after a sequence of calls. -/
def inmemService.run (s : inmemService) (calls : List Call) : inmemService :=
  calls.foldl inmemService.step s

/-- The IDs handed out by `generateID` to the `CreateTodo` calls of a sequence,
in call order. -/
def inmemService.assignedIDs : inmemService → List Call → List Int
  | _, [] => []
  | s, .CreateTodo desc :: rest =>
    s.generateID.1 :: inmemService.assignedIDs (s.step (.CreateTodo desc)) rest
  | s, c :: rest => inmemService.assignedIDs (s.step c) rest

/-- The number of `CreateTodo` calls in a sequence. -/
def countCreates : List Call → Nat
  | [] => 0
  | .CreateTodo _ :: rest => countCreates rest + 1
  | _ :: rest => countCreates rest

/-- A store state reachable from a fresh store by some sequence of calls. -/
def Reachable (s : inmemService) : Prop :=
  ∃ calls : List Call, s = NewInmemService.run calls

/-- The keys of the map. -/
def inmemService.keys (s : inmemService) : List Int :=
  s.todos.map Prod.fst

/-- The list `1, 2, ..., n` of IDs. -/
def idsUpTo (n : Nat) : List Int :=
  (List.range n).map (fun (k : Nat) => (k : Int) + 1)

/-- The state of a store in which `n` todos were created: the counter is
`n + 1`, the keys are `1..n`, every todo is stored under its own ID. -/
def StoreInv (n : Nat) (s : inmemService) : Prop :=
  s.nextID = (n : Int) + 1 ∧ s.keys = idsUpTo n ∧ ∀ kv ∈ s.todos, kv.2.ID = kv.1

/-! ### Goroutines calling `CreateTodo` concurrently

The methods are also run by several goroutines at once.  Here the mutex is
explicit: the body of `CreateTodo` is cut into its statements, each an atomic
step of one goroutine on the shared store, and a schedule says which goroutine
moves next.  `s.mu.Lock()` is a step that can only be taken while the mutex is
free; every other statement can always be taken.  (Under the Go memory model a
program whose shared accesses are all ordered by a mutex behaves as such an
interleaving of its statements.) -/

/-- The statement of `CreateTodo` a goroutine executes next: `s.mu.Lock()`;
inside `generateID` the evaluation of `return s.nextID`, then the deferred
`s.nextID++`; the assignment `s.todos[todo.ID] = todo`; the deferred
`s.mu.Unlock()`; and `returned` once the call has returned nil. -/
inductive Pc where
  | lock
  | readID
  | incrID
  | store
  | unlock
  | returned
deriving DecidableEq, Repr

/-- One goroutine inside `CreateTodo(ctx, desc)`: its argument, the statement it
is at, and its local variable `todo.ID` (still zero before `generateID`). -/
structure Goroutine where
  desc : String
  pc : Pc
  todoID : Int
deriving DecidableEq, Repr

/-- The store shared by the goroutines: the mutex `mu` (held or free), the
counter and the map, and the goroutines running `CreateTodo` on it. -/
structure Shared where
  locked : Bool
  service : inmemService
  goroutines : List Goroutine
deriving DecidableEq, Repr

/-- The goroutine has executed `s.todos[todo.ID] = todo`: its todo is created. -/
def Pc.created : Pc → Bool
  | .unlock => true
  | .returned => true
  | _ => false

/-- The goroutine is between `s.mu.Lock()` and `s.mu.Unlock()`. -/
def Pc.holdsLock : Pc → Bool
  | .readID => true
  | .incrID => true
  | .store => true
  | .unlock => true
  | _ => false

/-- The number of statements the goroutine still has to execute. -/
def Pc.remaining : Pc → Nat
  | .lock => 5
  | .readID => 4
  | .incrID => 3
  | .store => 2
  | .unlock => 1
  | .returned => 0

/-- The store `s` with `k` callers, one per description, about to enter
`CreateTodo`; the mutex is free. -/
def Shared.start (s : inmemService) (descs : List String) : Shared :=
  { locked := false
    service := s
    goroutines := descs.map (fun d => { desc := d, pc := Pc.lock, todoID := 0 }) }

/-- Goroutine `i` is scheduled and executes its next statement.  A goroutine
waiting in `s.mu.Lock()` while the mutex is held does not move, nor does one
that has returned; an index without a goroutine changes nothing. -/
def Shared.step (c : Shared) (i : Nat) : Shared :=
  match c.goroutines[i]? with
  | none => c
  | some g =>
    match g.pc with
    | .lock =>
      if c.locked then c
      else
        { c with
          locked := true
          goroutines := c.goroutines.set i { g with pc := Pc.readID } }
    | .readID =>
      { c with
        goroutines :=
          c.goroutines.set i { g with pc := Pc.incrID, todoID := c.service.generateID.1 } }
    | .incrID =>
      { c with
        service := c.service.generateID.2
        goroutines := c.goroutines.set i { g with pc := Pc.store } }
    | .store =>
      { c with
        service :=
          { c.service with
            todos := mapStore c.service.todos g.todoID
              { ID := g.todoID, Description := g.desc, Completed := false } }
        goroutines := c.goroutines.set i { g with pc := Pc.unlock } }
    | .unlock =>
      { c with
        locked := false
        goroutines := c.goroutines.set i { g with pc := Pc.returned } }
    | .returned => c

/-- The shared store after the goroutines have moved as the schedule says. -/
def Shared.run (c : Shared) (schedule : List Nat) : Shared :=
  schedule.foldl Shared.step c

/-- The total number of statements the goroutines still have to execute. -/
def Shared.remaining (c : Shared) : Nat :=
  (c.goroutines.map (fun g => g.pc.remaining)).sum

/-- What is known of one goroutine, by the statement it is at, when `n` todos
are stored of which `n0` were there before the goroutines started. -/
def GoroutineOK (n0 n : Nat) (s : inmemService) (g : Goroutine) : Prop :=
  match g.pc with
  | .lock => True
  | .readID => s.nextID = (n : Int) + 1
  | .incrID => s.nextID = (n : Int) + 1 ∧ g.todoID = (n : Int) + 1
  | .store => s.nextID = (n : Int) + 2 ∧ g.todoID = (n : Int) + 1
  | .unlock =>
    s.nextID = (n : Int) + 1 ∧ (n0 : Int) < g.todoID ∧ g.todoID ≤ (n : Int) ∧
      mapLookup s.todos g.todoID =
        some { ID := g.todoID, Description := g.desc, Completed := false }
  | .returned =>
    (n0 : Int) < g.todoID ∧ g.todoID ≤ (n : Int) ∧
      mapLookup s.todos g.todoID =
        some { ID := g.todoID, Description := g.desc, Completed := false }

/-- The invariant of the shared store: `n0` todos were stored in `s0` before the
goroutines started, `n` are stored now. -/
def SharedInv (s0 : inmemService) (n0 n : Nat) (c : Shared) : Prop :=
  n = n0 + c.goroutines.countP (fun g => g.pc.created) ∧
    c.service.keys = idsUpTo n ∧
    (∀ kv ∈ c.service.todos, kv.2.ID = kv.1) ∧
    (∀ k : Int, k ≤ (n0 : Int) → mapLookup c.service.todos k = mapLookup s0.todos k) ∧
    (c.locked = false →
      c.service.nextID = (n : Int) + 1 ∧ ∀ g ∈ c.goroutines, g.pc.holdsLock = false) ∧
    (c.locked = true → ∃ g ∈ c.goroutines, g.pc.holdsLock = true) ∧
    c.goroutines.Pairwise (fun a b => ¬ (a.pc.holdsLock = true ∧ b.pc.holdsLock = true)) ∧
    c.goroutines.Pairwise
      (fun a b => a.pc.created = true → b.pc.created = true → a.todoID ≠ b.todoID) ∧
    (∀ g ∈ c.goroutines, GoroutineOK n0 n c.service g)

/-! ## endpoint.go and transport.go: the response side -/

mutual
/-- The function `errors.Is(err, target)` of the standard library, for a
non-nil `err` and a comparable `target`: at each error of the tree it first
tests `err == target`, then the method `Is` when the error has one, then goes
on with what `Unwrap` returns: the one error of `Unwrap() error`, or each
error of `Unwrap() []error` in turn. -/
def errorsIs : GoError → GoError → Bool
  | .wrap msg inner, target =>
    GoError.same (GoError.wrap msg inner) target || errorsIs inner target
  | .join msg errs, target =>
    GoError.same (GoError.join msg errs) target || errorsIsAny errs target
  | .withIs msg accepts unwrap, target =>
    GoError.same (GoError.withIs msg accepts unwrap) target
      || accepts.any (fun a => GoError.same a target)
      || errorsIsAny unwrap target
  | err, target => GoError.same err target
/-- The loop of `errors.Is` over the errors returned by `Unwrap() []error`. -/
def errorsIsAny : List GoError → GoError → Bool
  | [], _ => false
  | e :: rest, target => errorsIs e target || errorsIsAny rest target
end

/-- The constant `http.StatusOK`. -/
def StatusOK : Nat := 200

/-- The constant `http.StatusBadRequest`. -/
def StatusBadRequest : Nat := 400

/-- The constant `http.StatusNotFound`. -/
def StatusNotFound : Nat := 404

/-- The constant `http.StatusInternalServerError`. -/
def StatusInternalServerError : Nat := 500

/-- A JSON value as the encoders produce it.  `todo t` stands for the object
with the fields "ID", "Description" and "Completed" of `t` (the struct has no
field tags), `todos ts` for the array of such objects, `errorValue e` for
whatever `encoding/json` makes of the non-nil error value `e`. -/
inductive JsonValue where
  | string (s : String)
  | todo (t : Todo)
  | todos (ts : List Todo)
  | errorValue (e : GoError)
deriving Repr

/-- The three response types of endpoint.go, as the dynamic value behind the
`interface{}` that reaches `encodeResponse`. -/
inductive Response where
  | todoResponse (Todo : GoTodo.Todo) (Err : Option GoError)
  | todosResponse (Todos : List GoTodo.Todo) (Err : Option GoError)
  | errorResponse (Err : Option GoError)
deriving Repr

/-- The method `error()` of the interface `errorer`, which all three response
types implement by returning their `Err` field. -/
def Response.error : Response → Option GoError
  | .todoResponse _ err => err
  | .todosResponse _ err => err
  | .errorResponse err => err

/-- A struct field tagged `omitempty` whose value is an error: left out when the
error is nil. -/
def omitemptyError (name : String) : Option GoError → List (String × JsonValue)
  | none => []
  | some e => [(name, JsonValue.errorValue e)]

/-- The JSON object `encoding/json` writes for a response value, field by field
following the struct tags: `json:"todo"`, `json:"todos,omitempty"` (left out
for a nil or empty slice), `json:"error,omitempty"`, and `json:"-"` (never
written). -/
def Response.marshal : Response → List (String × JsonValue)
  | .todoResponse t err => [("todo", JsonValue.todo t)] ++ omitemptyError "error" err
  | .todosResponse ts err =>
    (if ts.isEmpty then [] else [("todos", JsonValue.todos ts)]) ++ omitemptyError "error" err
  | .errorResponse _ => []

/-- What a handler has sent through its `http.ResponseWriter`: the header map,
the status code once it is fixed, and the JSON objects written to the body. -/
structure ResponseWriter where
  header : List (String × String)
  code : Option Nat
  body : List (List (String × JsonValue))
deriving Repr

/-- The writer a handler is given: nothing set, nothing written. -/
def ResponseWriter.fresh : ResponseWriter :=
  { header := [], code := none, body := [] }

/-- The call `w.Header().Set(key, value)`. -/
def ResponseWriter.setHeader (w : ResponseWriter) (key value : String) : ResponseWriter :=
  { w with header := (key, value) :: w.header.filter (fun kv => kv.1 != key) }

/-- The call `w.WriteHeader(code)`: fixes the status code; a later call does not
change it. -/
def ResponseWriter.WriteHeader (w : ResponseWriter) (code : Nat) : ResponseWriter :=
  match w.code with
  | some _ => w
  | none => { w with code := some code }

/-- The call `json.NewEncoder(w).Encode(v)`: writes one JSON object to the
body; a first write without `WriteHeader` fixes the status code at
`http.StatusOK`. -/
def ResponseWriter.Encode (w : ResponseWriter) (v : List (String × JsonValue)) :
    ResponseWriter :=
  let w1 := w.WriteHeader StatusOK
  { w1 with body := w1.body ++ [v] }

/-- The status code chosen by the `switch` of `encodeError`. -/
def errorCode (err : GoError) : Nat :=
  if errorsIs err GoError.ErrInvalidID then StatusBadRequest
  else if errorsIs err GoError.ErrTodoNotFound then StatusNotFound
  else StatusInternalServerError

/-- The function `encodeError(ctx, err, w)`. -/
def encodeError (err : GoError) (w : ResponseWriter) : ResponseWriter :=
  let code := errorCode err
  let w1 := w.setHeader "Content-Type" "application/json; charset=utf-8"
  let w2 := w1.WriteHeader code
  w2.Encode [("error", JsonValue.string err.Error)]

/-- The function `encodeResponse(ctx, w, response)`. -/
def encodeResponse (w : ResponseWriter) (response : Response) :
    ResponseWriter × Option GoError :=
  match response.error with
  | some e => (encodeError e w, none)
  | none =>
    let w1 := w.setHeader "Content-Type" "application/json; charset=utf-8"
    (w1.Encode response.marshal, none)

/-- The value of the field `name` of a JSON object, when it has one. -/
def jsonField (obj : List (String × JsonValue)) (name : String) : Option JsonValue :=
  (obj.find? (fun kv => kv.1 == name)).map Prod.snd

/-! ## Theorems: the map operations -/

theorem mapLookup_mapStore_same (m : List (Int × Todo)) (k : Int) (v : Todo) :
    mapLookup (mapStore m k v) k = some v := by
  induction m with
  | nil => simp [mapStore, mapLookup]
  | cons kv rest ih =>
    obtain ⟨k1, w⟩ := kv
    by_cases h : k1 = k
    · simp [mapStore, mapLookup, h]
    · simp [mapStore, mapLookup, h, ih]

theorem mapLookup_mapStore_other (m : List (Int × Todo)) (k j : Int) (v : Todo)
    (hj : j ≠ k) : mapLookup (mapStore m k v) j = mapLookup m j := by
  induction m with
  | nil =>
    have : ¬ k = j := fun h => hj h.symm
    simp [mapStore, mapLookup, this]
  | cons kv rest ih =>
    obtain ⟨k1, w⟩ := kv
    by_cases h : k1 = k
    · have : ¬ k = j := fun h => hj h.symm
      simp [mapStore, mapLookup, h, this]
    · by_cases h2 : k1 = j
      · subst h2
        simp [mapStore, mapLookup, hj]
      · simp [mapStore, mapLookup, h, h2, ih]

theorem mapLookup_eq_none_iff (m : List (Int × Todo)) (k : Int) :
    mapLookup m k = none ↔ k ∉ m.map Prod.fst := by
  induction m with
  | nil => simp [mapLookup]
  | cons kv rest ih =>
    obtain ⟨k1, w⟩ := kv
    by_cases h : k1 = k
    · simp [mapLookup, h]
    · have h2 : ¬ k = k1 := fun e => h e.symm
      simp [mapLookup, h, h2, ih]

theorem mem_of_mapLookup_eq_some (m : List (Int × Todo)) (k : Int) (t : Todo)
    (h : mapLookup m k = some t) : (k, t) ∈ m := by
  induction m with
  | nil => simp [mapLookup] at h
  | cons kv rest ih =>
    obtain ⟨k1, w⟩ := kv
    by_cases h1 : k1 = k
    · simp [mapLookup, h1] at h
      simp [h1, h]
    · simp [mapLookup, h1] at h
      exact List.mem_cons_of_mem _ (ih h)

theorem keys_mapStore_of_lookup (m : List (Int × Todo)) (k : Int) (t v : Todo)
    (h : mapLookup m k = some t) :
    (mapStore m k v).map Prod.fst = m.map Prod.fst := by
  induction m with
  | nil => simp [mapLookup] at h
  | cons kv rest ih =>
    obtain ⟨k1, w⟩ := kv
    by_cases h1 : k1 = k
    · simp [mapStore, h1]
    · simp [mapLookup, h1] at h
      simp [mapStore, h1, ih h]

theorem mapStore_of_lookup_none (m : List (Int × Todo)) (k : Int) (v : Todo)
    (h : mapLookup m k = none) : mapStore m k v = m ++ [(k, v)] := by
  induction m with
  | nil => simp [mapStore]
  | cons kv rest ih =>
    obtain ⟨k1, w⟩ := kv
    by_cases h1 : k1 = k
    · simp [mapLookup, h1] at h
    · simp [mapLookup, h1] at h
      simp [mapStore, h1, ih h]

theorem mem_mapStore (m : List (Int × Todo)) (k : Int) (v : Todo) (kv : Int × Todo)
    (h : kv ∈ mapStore m k v) : kv = (k, v) ∨ kv ∈ m := by
  induction m with
  | nil => simpa [mapStore] using h
  | cons e rest ih =>
    obtain ⟨k1, w⟩ := e
    by_cases h1 : k1 = k
    · simp [mapStore, h1] at h
      rcases h with h | h
      · exact Or.inl h
      · exact Or.inr (List.mem_cons_of_mem _ h)
    · simp [mapStore, h1] at h
      rcases h with h | h
      · exact Or.inr (by simp [h])
      · rcases ih h with h2 | h2
        · exact Or.inl h2
        · exact Or.inr (List.mem_cons_of_mem _ h2)

/-! ## Theorems: the invariant of the store -/

theorem idsUpTo_succ (n : Nat) : idsUpTo (n + 1) = idsUpTo n ++ [(n : Int) + 1] := by
  simp [idsUpTo, List.range_succ]

theorem mem_idsUpTo (n : Nat) (k : Int) : k ∈ idsUpTo n ↔ 1 ≤ k ∧ k ≤ (n : Int) := by
  simp only [idsUpTo, List.mem_map, List.mem_range]
  constructor
  · rintro ⟨a, ha, rfl⟩
    omega
  · rintro ⟨h1, h2⟩
    exact ⟨(k - 1).toNat, by omega, by omega⟩

theorem idsUpTo_pairwise (n : Nat) : (idsUpTo n).Pairwise (fun a b => a < b) := by
  unfold idsUpTo
  rw [List.pairwise_map]
  exact (List.pairwise_lt_range n).imp (by intro a b h; omega)

theorem idsUpTo_nodup (n : Nat) : (idsUpTo n).Nodup :=
  (idsUpTo_pairwise n).imp (fun h => ne_of_lt h)

theorem idsUpTo_length (n : Nat) : (idsUpTo n).length = n := by
  simp [idsUpTo]

theorem storeInv_new : StoreInv 0 NewInmemService := by
  simp [StoreInv, NewInmemService, inmemService.keys, idsUpTo]

theorem storeInv_lookup_next (n : Nat) (s : inmemService) (h : StoreInv n s) :
    mapLookup s.todos ((n : Int) + 1) = none := by
  rw [mapLookup_eq_none_iff]
  have hk : s.todos.map Prod.fst = idsUpTo n := h.2.1
  rw [hk, mem_idsUpTo]
  omega

theorem createTodo_todos (n : Nat) (s : inmemService) (d : String) (h : StoreInv n s) :
    (s.CreateTodo d).1.todos = s.todos ++ [((n : Int) + 1, ⟨(n : Int) + 1, d, false⟩)] := by
  have hn : s.nextID = (n : Int) + 1 := h.1
  simp only [inmemService.CreateTodo, inmemService.generateID, hn]
  exact mapStore_of_lookup_none _ _ _ (storeInv_lookup_next n s h)

theorem storeInv_create (n : Nat) (s : inmemService) (d : String) (h : StoreInv n s) :
    StoreInv (n + 1) (s.CreateTodo d).1 := by
  have ht := createTodo_todos n s d h
  refine ⟨?_, ?_, ?_⟩
  · have hn : s.nextID = (n : Int) + 1 := h.1
    simp [inmemService.CreateTodo, inmemService.generateID, hn]
  · have hk : s.todos.map Prod.fst = idsUpTo n := h.2.1
    simp [inmemService.keys, ht, hk, idsUpTo_succ]
  · intro kv hkv
    rw [ht, List.mem_append] at hkv
    rcases hkv with hkv | hkv
    · exact h.2.2 kv hkv
    · simp at hkv
      simp [hkv]

theorem storeInv_update (n : Nat) (s : inmemService) (id : Int) (d : String)
    (h : StoreInv n s) : StoreInv n (s.UpdateTodo id d).1 := by
  unfold inmemService.UpdateTodo
  cases hl : mapLookup s.todos id with
  | none => exact h
  | some t =>
    refine ⟨h.1, ?_, ?_⟩
    · have hk : s.todos.map Prod.fst = idsUpTo n := h.2.1
      simp [inmemService.keys, keys_mapStore_of_lookup _ _ t _ hl, hk]
    · intro kv hkv
      rcases mem_mapStore _ _ _ _ hkv with e | hm
      · have := h.2.2 _ (mem_of_mapLookup_eq_some _ _ _ hl)
        simpa [e] using this
      · exact h.2.2 kv hm

theorem storeInv_setCompleted (n : Nat) (s : inmemService) (id : Int) (c : Bool)
    (h : StoreInv n s) : StoreInv n (s.SetCompletedStatus id c).1 := by
  unfold inmemService.SetCompletedStatus
  cases hl : mapLookup s.todos id with
  | none => exact h
  | some t =>
    refine ⟨h.1, ?_, ?_⟩
    · have hk : s.todos.map Prod.fst = idsUpTo n := h.2.1
      simp [inmemService.keys, keys_mapStore_of_lookup _ _ t _ hl, hk]
    · intro kv hkv
      rcases mem_mapStore _ _ _ _ hkv with e | hm
      · have := h.2.2 _ (mem_of_mapLookup_eq_some _ _ _ hl)
        simpa [e] using this
      · exact h.2.2 kv hm

theorem storeInv_step (n : Nat) (s : inmemService) (c : Call) (h : StoreInv n s) :
    StoreInv (n + countCreates [c]) (s.step c) := by
  cases c with
  | Todo id => simpa [inmemService.step, countCreates] using h
  | Todos => simpa [inmemService.step, countCreates] using h
  | CreateTodo d => simpa [inmemService.step, countCreates] using storeInv_create n s d h
  | UpdateTodo id d =>
    simpa [inmemService.step, countCreates] using storeInv_update n s id d h
  | SetCompletedStatus id c =>
    simpa [inmemService.step, countCreates] using storeInv_setCompleted n s id c h

theorem countCreates_cons (c : Call) (rest : List Call) :
    countCreates (c :: rest) = countCreates [c] + countCreates rest := by
  cases c <;> simp [countCreates, Nat.add_comm]

theorem countCreates_append (xs ys : List Call) :
    countCreates (xs ++ ys) = countCreates xs + countCreates ys := by
  induction xs with
  | nil => simp [countCreates]
  | cons c rest ih =>
    rw [List.cons_append, countCreates_cons, ih, countCreates_cons c rest]
    omega

theorem run_cons (s : inmemService) (c : Call) (rest : List Call) :
    s.run (c :: rest) = (s.step c).run rest := rfl

theorem run_append (s : inmemService) (xs ys : List Call) :
    s.run (xs ++ ys) = (s.run xs).run ys := by
  simp [inmemService.run, List.foldl_append]

theorem storeInv_run (calls : List Call) :
    ∀ (n : Nat) (s : inmemService), StoreInv n s →
      StoreInv (n + countCreates calls) (s.run calls) := by
  induction calls with
  | nil => intro n s h; simpa [inmemService.run, countCreates] using h
  | cons c rest ih =>
    intro n s h
    have h1 := ih _ _ (storeInv_step n s c h)
    rw [run_cons, countCreates_cons, ← Nat.add_assoc]
    exact h1

theorem storeInv_of_reachable (s : inmemService) (h : Reachable s) : ∃ n, StoreInv n s := by
  obtain ⟨calls, rfl⟩ := h
  exact ⟨_, storeInv_run calls 0 _ storeInv_new⟩

theorem assignedIDs_of_inv (calls : List Call) :
    ∀ (n : Nat) (s : inmemService), StoreInv n s →
      s.assignedIDs calls =
        (List.range (countCreates calls)).map (fun (k : Nat) => (n : Int) + (k : Int) + 1) := by
  induction calls with
  | nil => intro n s _; simp [inmemService.assignedIDs, countCreates]
  | cons c rest ih =>
    intro n s h
    have h1 := ih _ _ (storeInv_step n s c h)
    cases c with
    | CreateTodo d =>
      have hn : s.nextID = (n : Int) + 1 := h.1
      simp only [inmemService.assignedIDs, countCreates, inmemService.generateID, hn] at h1 ⊢
      rw [h1, List.range_succ_eq_map]
      simp only [List.map_cons, List.map_map, Nat.cast_zero, add_zero, List.cons.injEq, true_and]
      apply List.map_congr_left
      intro k _
      simp only [Function.comp, Nat.cast_add, Nat.cast_one, Nat.cast_succ]
      omega
    | Todo id => simpa [inmemService.assignedIDs, countCreates] using h1
    | Todos => simpa [inmemService.assignedIDs, countCreates] using h1
    | UpdateTodo id d => simpa [inmemService.assignedIDs, countCreates] using h1
    | SetCompletedStatus id c => simpa [inmemService.assignedIDs, countCreates] using h1

/-! ## Theorems: sorting and `Todos` -/

theorem foldl_append_values (order : List (Int × Todo)) (acc : List Todo) :
    order.foldl (fun acc kv => acc ++ [kv.2]) acc = acc ++ order.map Prod.snd := by
  induction order generalizing acc with
  | nil => simp
  | cons kv rest ih => simp [List.foldl_cons, ih]

theorem insertOrdered_perm {α : Type} (less : α → α → Bool) (x : α) (xs : List α) :
    (insertOrdered less x xs).Perm (x :: xs) := by
  induction xs with
  | nil => simp [insertOrdered]
  | cons y ys ih =>
    unfold insertOrdered
    split
    · exact List.Perm.refl _
    · exact ((List.Perm.cons y ih).trans (List.Perm.swap x y ys))

theorem sortSlice_perm {α : Type} (less : α → α → Bool) (xs : List α) :
    (sortSlice less xs).Perm xs := by
  induction xs with
  | nil => simp [sortSlice]
  | cons x rest ih =>
    have h := insertOrdered_perm less x (sortSlice less rest)
    exact h.trans (List.Perm.cons x ih)

theorem insertOrdered_sorted (x : Todo) (xs : List Todo)
    (h : xs.Pairwise (fun a b => a.ID ≤ b.ID)) :
    (insertOrdered lessByID x xs).Pairwise (fun a b => a.ID ≤ b.ID) := by
  induction xs with
  | nil => simp [insertOrdered]
  | cons y ys ih =>
    rw [List.pairwise_cons] at h
    unfold insertOrdered
    by_cases hlt : x.ID < y.ID
    · simp only [lessByID, hlt, decide_True, if_true]
      refine List.pairwise_cons.2 ⟨?_, List.pairwise_cons.2 h⟩
      intro b hb
      rcases List.mem_cons.1 hb with e | hb
      · rw [e]; exact le_of_lt hlt
      · exact le_trans (le_of_lt hlt) (h.1 b hb)
    · simp only [lessByID, hlt, decide_False]
      refine List.pairwise_cons.2 ⟨?_, ih h.2⟩
      intro b hb
      have hb2 := (insertOrdered_perm lessByID x ys).subset hb
      rcases List.mem_cons.1 hb2 with e | hb3
      · rw [e]; exact not_lt.1 hlt
      · exact h.1 b hb3

theorem sortSlice_sorted (xs : List Todo) :
    (sortSlice lessByID xs).Pairwise (fun a b => a.ID ≤ b.ID) := by
  induction xs with
  | nil => simp [sortSlice]
  | cons x rest ih => exact insertOrdered_sorted x _ ih

theorem strict_of_sorted_nodup (xs : List Todo)
    (hs : xs.Pairwise (fun a b => a.ID ≤ b.ID)) (hn : (xs.map Todo.ID).Nodup) :
    xs.Pairwise (fun a b => a.ID < b.ID) := by
  have hne : xs.Pairwise (fun a b => a.ID ≠ b.ID) := by
    simpa [List.Nodup, List.pairwise_map] using hn
  exact (hs.and hne).imp (fun h => lt_of_le_of_ne h.1 h.2)

theorem sorted_perm_unique (l₁ l₂ : List Todo) (hp : l₁.Perm l₂)
    (h1 : l₁.Pairwise (fun a b => a.ID < b.ID))
    (h2 : l₂.Pairwise (fun a b => a.ID < b.ID)) : l₁ = l₂ :=
  @List.eq_of_perm_of_sorted Todo (fun a b => a.ID < b.ID)
    ⟨fun _ _ hab hba => absurd hab (not_lt.2 (le_of_lt hba))⟩ l₁ l₂ hp h1 h2

/-- Any reordering of `xs` in which no element is `less` than an earlier one is
the result of `sortSlice`, provided the IDs in `xs` are pairwise distinct. -/
theorem sortSlice_unique (xs out : List Todo) (hn : (xs.map Todo.ID).Nodup)
    (hp : out.Perm xs) (hs : out.Pairwise (fun a b => lessByID b a = false)) :
    out = sortSlice lessByID xs := by
  have hs1 : out.Pairwise (fun a b => a.ID ≤ b.ID) :=
    hs.imp (by intro a b h; simpa [lessByID] using h)
  have hn1 : (out.map Todo.ID).Nodup := (hp.map Todo.ID).nodup_iff.2 hn
  have hn2 : ((sortSlice lessByID xs).map Todo.ID).Nodup :=
    ((sortSlice_perm lessByID xs).map Todo.ID).nodup_iff.2 hn
  exact sorted_perm_unique _ _ (hp.trans (sortSlice_perm lessByID xs).symm)
    (strict_of_sorted_nodup _ hs1 hn1) (strict_of_sorted_nodup _ (sortSlice_sorted xs) hn2)

theorem todosRange_fst (order : List (Int × Todo)) :
    (TodosRange order).1 = sortSlice lessByID (order.map Prod.snd) := by
  simp [TodosRange, foldl_append_values]

theorem todosRange_snd (order : List (Int × Todo)) : (TodosRange order).2 = none := rfl

theorem todosRange_eq_of_sorted (order : List (Int × Todo)) (out : List Todo)
    (hp : (order.map Prod.snd).Perm out)
    (hs : out.Pairwise (fun a b => a.ID < b.ID)) : TodosRange order = (out, none) := by
  have hn : (out.map Todo.ID).Nodup := by
    have : (out.map Todo.ID).Pairwise (fun a b => a < b) := by
      rw [List.pairwise_map]; exact hs
    exact this.imp (fun h => ne_of_lt h)
  have hn2 : ((order.map Prod.snd).map Todo.ID).Nodup := (hp.map Todo.ID).nodup_iff.2 hn
  have hs2 := strict_of_sorted_nodup _ (sortSlice_sorted (order.map Prod.snd))
    (((sortSlice_perm lessByID (order.map Prod.snd)).map Todo.ID).nodup_iff.2 hn2)
  have e := sorted_perm_unique _ _ ((sortSlice_perm lessByID (order.map Prod.snd)).trans hp) hs2 hs
  apply Prod.ext
  · rw [todosRange_fst]; exact e
  · rfl

theorem values_sorted_of_inv (n : Nat) (s : inmemService) (h : StoreInv n s) :
    (s.todos.map Prod.snd).Pairwise (fun a b => a.ID < b.ID) := by
  have hk : s.todos.map Prod.fst = idsUpTo n := h.2.1
  have hp := idsUpTo_pairwise n
  rw [← hk, List.pairwise_map] at hp
  rw [List.pairwise_map]
  refine List.Pairwise.imp_of_mem ?_ hp
  intro a b ha hb hab
  rw [h.2.2 a ha, h.2.2 b hb]
  exact hab

theorem todosRange_of_inv (n : Nat) (s : inmemService) (order : List (Int × Todo))
    (h : StoreInv n s) (ho : order.Perm s.todos) :
    TodosRange order = (s.todos.map Prod.snd, none) :=
  todosRange_eq_of_sorted order _ (ho.map Prod.snd) (values_sorted_of_inv n s h)

theorem lookup_of_mem_of_inv (n : Nat) (s : inmemService) (h : StoreInv n s)
    (kv : Int × Todo) (hm : kv ∈ s.todos) : mapLookup s.todos kv.1 = some kv.2 := by
  have hnd : (s.todos.map Prod.fst).Nodup := by
    have hk : s.todos.map Prod.fst = idsUpTo n := h.2.1
    rw [hk]; exact idsUpTo_nodup n
  generalize s.todos = m at hm hnd
  induction m with
  | nil => simp at hm
  | cons e rest ih =>
    obtain ⟨k1, w⟩ := e
    rw [List.map_cons, List.nodup_cons] at hnd
    rcases List.mem_cons.1 hm with e1 | hm1
    · simp [mapLookup, e1]
    · have hne : ¬ k1 = kv.1 := by
        intro e2
        have hmem : kv.1 ∈ rest.map Prod.fst := List.mem_map_of_mem Prod.fst hm1
        exact hnd.1 (e2 ▸ hmem)
      simp [mapLookup, hne, ih hm1 hnd.2]

theorem countCreates_map_create (ds : List String) :
    countCreates (ds.map Call.CreateTodo) = ds.length := by
  induction ds with
  | nil => simp [countCreates]
  | cons d rest ih => simp [countCreates, ih]

theorem storeInv_creates (ds : List String) :
    StoreInv ds.length (NewInmemService.run (ds.map Call.CreateTodo)) := by
  have h := storeInv_run (ds.map Call.CreateTodo) 0 _ storeInv_new
  simpa [countCreates_map_create] using h

theorem run_creates_todos (ds : List String) :
    (NewInmemService.run (ds.map Call.CreateTodo)).todos =
      List.zipWith (fun k d => (k, (⟨k, d, false⟩ : Todo))) (idsUpTo ds.length) ds := by
  induction ds using List.reverseRecOn with
  | nil => simp [inmemService.run, NewInmemService, idsUpTo]
  | append_singleton ds d ih =>
    rw [List.map_append, run_append, List.length_append, List.length_singleton, idsUpTo_succ,
      List.zipWith_append _ _ _ _ _ (by simp [idsUpTo_length]), ← ih]
    simpa [inmemService.run, inmemService.step] using
      createTodo_todos ds.length _ d (storeInv_creates ds)

/-! ## Theorems: the claims about the store -/

/-- C1: in every store state reachable from a fresh store, `CreateTodo(d)`
assigns the current value of the next-ID counter, returns no error, and a
following `Todo(id)` with that ID returns exactly the todo with that ID, the
description `d` and `Completed = false`, with no error. -/
theorem createTodo_then_todo (s : inmemService) (d : String) (h : Reachable s) :
    s.generateID.1 = s.nextID ∧ (s.CreateTodo d).2 = none ∧
      (s.CreateTodo d).1.Todo s.nextID =
        ({ ID := s.nextID, Description := d, Completed := false }, none) := by
  obtain ⟨n, hinv⟩ := storeInv_of_reachable s h
  have hn : s.nextID = (n : Int) + 1 := hinv.1
  refine ⟨rfl, rfl, ?_⟩
  have hpos : ¬ s.nextID < 0 := by omega
  have hl : mapLookup (s.CreateTodo d).1.todos s.nextID =
      some { ID := s.nextID, Description := d, Completed := false } :=
    mapLookup_mapStore_same _ _ _
  simp only [inmemService.Todo, hpos, if_false, hl]

theorem createTodo_then_todo_witness :
    Reachable (NewInmemService.run [Call.CreateTodo "first"]) ∧
      ((NewInmemService.run [Call.CreateTodo "first"]).CreateTodo "second").1.Todo 2 =
        ({ ID := 2, Description := "second", Completed := false }, none) :=
  ⟨⟨[Call.CreateTodo "first"], rfl⟩,
    (createTodo_then_todo (NewInmemService.run [Call.CreateTodo "first"]) "second"
      ⟨[Call.CreateTodo "first"], rfl⟩).2.2⟩

/-- C2: after `CreateTodo(d1)`, ..., `CreateTodo(dN)` on a fresh store, `Todos()`
returns, for every iteration order of the map and with no error, exactly `N`
todos, the `k`-th of which has ID `k`, description `dk` and `Completed = false`
(the empty list for `N = 0`). -/
theorem todos_after_creates (ds : List String) (order : List (Int × Todo))
    (ho : order.Perm (NewInmemService.run (ds.map Call.CreateTodo)).todos) :
    TodosRange order =
        (List.zipWith (fun k d => ({ ID := k, Description := d, Completed := false } : Todo))
          (idsUpTo ds.length) ds, none) ∧
      (TodosRange order).1.length = ds.length ∧
      ∀ k : Nat, (TodosRange order).1[k]? =
        (ds[k]?).map (fun d => ({ ID := (k : Int) + 1, Description := d, Completed := false } : Todo)) := by
  have h1 := todosRange_of_inv ds.length _ order (storeInv_creates ds) ho
  have h2 : (NewInmemService.run (ds.map Call.CreateTodo)).todos.map Prod.snd =
      List.zipWith (fun k d => ({ ID := k, Description := d, Completed := false } : Todo))
        (idsUpTo ds.length) ds := by
    rw [run_creates_todos, List.map_zipWith]
  rw [h2] at h1
  refine ⟨h1, ?_, ?_⟩
  · rw [h1]
    simp [idsUpTo_length]
  · intro k
    rw [h1]
    simp only [List.getElem?_zipWith, idsUpTo, List.getElem?_map]
    by_cases hk : k < ds.length
    · simp [List.getElem?_range hk, List.getElem?_eq_getElem hk]
    · have hk2 : ds.length ≤ k := Nat.le_of_not_lt hk
      simp [List.getElem?_eq_none hk2]

theorem todos_after_creates_witness :
    List.Perm [(2, (⟨2, "b", false⟩ : Todo)), (3, ⟨3, "c", false⟩), (1, ⟨1, "a", false⟩)]
        (NewInmemService.run (["a", "b", "c"].map Call.CreateTodo)).todos ∧
      TodosRange [(2, ⟨2, "b", false⟩), (3, ⟨3, "c", false⟩), (1, ⟨1, "a", false⟩)] =
        ([⟨1, "a", false⟩, ⟨2, "b", false⟩, ⟨3, "c", false⟩], none) :=
  ⟨by decide,
    (todos_after_creates ["a", "b", "c"]
      [(2, ⟨2, "b", false⟩), (3, ⟨3, "c", false⟩), (1, ⟨1, "a", false⟩)] (by decide)).1⟩

/-- C3: for every sequence of calls applied to a fresh store, with `n` the
number of its `CreateTodo` calls: the `k`-th `CreateTodo` is assigned ID `k`
(so the assigned IDs start at 1, strictly increase and are never shared), the
resulting store holds exactly `n` todos whose keys are exactly `1..n`, each
stored under its own ID, and the counter is `n + 1`; and whatever calls follow,
every todo stays in the store and no later `CreateTodo` is assigned an ID that
is already in it. -/
theorem ids_sequential (calls later : List Call) :
    NewInmemService.assignedIDs calls = idsUpTo (countCreates calls) ∧
      (NewInmemService.assignedIDs calls).Pairwise (fun a b => a < b) ∧
      (NewInmemService.run calls).keys = idsUpTo (countCreates calls) ∧
      (NewInmemService.run calls).todos.length = countCreates calls ∧
      (∀ k : Int, mapLookup (NewInmemService.run calls).todos k ≠ none ↔
        1 ≤ k ∧ k ≤ (countCreates calls : Int)) ∧
      (∀ kv ∈ (NewInmemService.run calls).todos, kv.2.ID = kv.1) ∧
      (NewInmemService.run calls).nextID = (countCreates calls : Int) + 1 ∧
      (∀ k ∈ (NewInmemService.run calls).keys,
        k ∈ (NewInmemService.run (calls ++ later)).keys) ∧
      (∀ k ∈ (NewInmemService.run calls).assignedIDs later,
        k ∉ (NewInmemService.run calls).keys) := by
  have hinv := storeInv_run calls 0 _ storeInv_new
  rw [Nat.zero_add] at hinv
  have hids : NewInmemService.assignedIDs calls = idsUpTo (countCreates calls) := by
    rw [assignedIDs_of_inv calls 0 _ storeInv_new]
    simp [idsUpTo]
  have hk : (NewInmemService.run calls).todos.map Prod.fst = idsUpTo (countCreates calls) :=
    hinv.2.1
  refine ⟨hids, ?_, hinv.2.1, ?_, ?_, hinv.2.2, hinv.1, ?_, ?_⟩
  · rw [hids]; exact idsUpTo_pairwise _
  · have := congrArg List.length hk
    simpa [idsUpTo_length] using this
  · intro k
    rw [Ne, mapLookup_eq_none_iff, hk, mem_idsUpTo, not_not]
  · intro k hmem
    have hinv2 := storeInv_run (calls ++ later) 0 _ storeInv_new
    rw [Nat.zero_add] at hinv2
    rw [hinv2.2.1, mem_idsUpTo, countCreates_append]
    rw [hinv.2.1, mem_idsUpTo] at hmem
    push_cast
    omega
  · intro k hmem
    rw [assignedIDs_of_inv later _ _ hinv] at hmem
    rw [hinv.2.1, mem_idsUpTo]
    simp only [List.mem_map, List.mem_range] at hmem
    obtain ⟨a, _, rfl⟩ := hmem
    omega

/-- C4: in every store state reachable from a fresh store, `Todos()` never
fails and, for every iteration order of the map, returns the same list: it
contains every stored todo exactly once and nothing else, in strictly ascending
order of ID.  The list is also the only reordering of the collected values that
the contract of `sort.Slice` allows, so it does not depend on how the library
sorts. -/
theorem todos_sorted_complete (s : inmemService) (order : List (Int × Todo))
    (hr : Reachable s) (ho : order.Perm s.todos) :
    (TodosRange order).2 = none ∧
      (TodosRange order).1.Perm (s.todos.map Prod.snd) ∧
      (∀ t : Todo, t ∈ (TodosRange order).1 ↔ mapLookup s.todos t.ID = some t) ∧
      (TodosRange order).1.Nodup ∧
      (TodosRange order).1.length = s.todos.length ∧
      (TodosRange order).1.Pairwise (fun a b => a.ID < b.ID) ∧
      TodosRange order = s.Todos ∧
      (∀ out : List Todo, out.Perm (order.map Prod.snd) →
        out.Pairwise (fun a b => lessByID b a = false) → out = (TodosRange order).1) := by
  obtain ⟨n, hinv⟩ := storeInv_of_reachable s hr
  have h1 := todosRange_of_inv n s order hinv ho
  have h2 := todosRange_of_inv n s s.todos hinv (List.Perm.refl _)
  have hs := values_sorted_of_inv n s hinv
  refine ⟨rfl, ?_, ?_, ?_, ?_, ?_, ?_, ?_⟩
  · rw [h1]
  · intro t
    rw [h1]
    constructor
    · intro hm
      obtain ⟨kv, hkv, rfl⟩ := List.mem_map.1 hm
      rw [hinv.2.2 kv hkv]
      exact lookup_of_mem_of_inv n s hinv kv hkv
    · intro hl
      exact List.mem_map.2 ⟨(t.ID, t), mem_of_mapLookup_eq_some _ _ _ hl, rfl⟩
  · rw [h1]
    exact hs.imp (fun hab e => by rw [e] at hab; exact lt_irrefl _ hab)
  · rw [h1]; simp
  · rw [h1]; exact hs
  · rw [h1]; exact h2.symm
  · intro out hp hso
    have hnd : ((s.todos.map Prod.snd).map Todo.ID).Nodup := by
      have hlt : ((s.todos.map Prod.snd).map Todo.ID).Pairwise (fun a b => a < b) := by
        rw [List.pairwise_map]; exact hs
      exact hlt.imp (fun hab => ne_of_lt hab)
    have hnd2 : ((order.map Prod.snd).map Todo.ID).Nodup :=
      (((ho.map Prod.snd).map Todo.ID).nodup_iff).2 hnd
    rw [todosRange_fst]
    exact sortSlice_unique _ out hnd2 hp hso

theorem todos_sorted_complete_witness :
    Reachable (NewInmemService.run
        [Call.CreateTodo "a", Call.CreateTodo "b", Call.SetCompletedStatus 1 true]) ∧
      List.Perm [(2, (⟨2, "b", false⟩ : Todo)), (1, ⟨1, "a", true⟩)]
        (NewInmemService.run
          [Call.CreateTodo "a", Call.CreateTodo "b", Call.SetCompletedStatus 1 true]).todos ∧
      TodosRange [(2, ⟨2, "b", false⟩), (1, ⟨1, "a", true⟩)] =
        (NewInmemService.run
          [Call.CreateTodo "a", Call.CreateTodo "b", Call.SetCompletedStatus 1 true]).Todos :=
  ⟨⟨_, rfl⟩, by decide,
    (todos_sorted_complete _ [(2, ⟨2, "b", false⟩), (1, ⟨1, "a", true⟩)]
      ⟨[Call.CreateTodo "a", Call.CreateTodo "b", Call.SetCompletedStatus 1 true], rfl⟩
      (by decide)).2.2.2.2.2.2.1⟩

/-- C5: for every store state and every integer `id`, `Todo(id)` (a) fails with
`ErrInvalidID` and the zero-value Todo if and only if `id < 0`; (b) for
`id >= 0` with no todo stored under `id` returns the zero-value Todo
with no error; (c) otherwise returns the stored todo with no error; the call
leaves the store as it is, so repeating it gives the same result. -/
theorem todo_lookup (s : inmemService) (id : Int) :
    ((s.Todo id).2 = some GoError.ErrInvalidID ↔ id < 0) ∧
      ((s.Todo id).2 ≠ none ↔ id < 0) ∧
      (id < 0 → s.Todo id = (Todo.zero, some GoError.ErrInvalidID)) ∧
      (0 ≤ id → mapLookup s.todos id = none → s.Todo id = (Todo.zero, none)) ∧
      (∀ t : Todo, 0 ≤ id → mapLookup s.todos id = some t → s.Todo id = (t, none)) ∧
      Todo.zero = { ID := 0, Description := "", Completed := false } ∧
      s.step (Call.Todo id) = s ∧
      (s.step (Call.Todo id)).Todo id = s.Todo id := by
  refine ⟨?_, ?_, ?_, ?_, ?_, rfl, rfl, rfl⟩
  · by_cases h : id < 0
    · simp [inmemService.Todo, h]
    · cases hl : mapLookup s.todos id <;> simp [inmemService.Todo, h, hl]
  · by_cases h : id < 0
    · simp [inmemService.Todo, h]
    · cases hl : mapLookup s.todos id <;> simp [inmemService.Todo, h, hl]
  · intro h
    simp [inmemService.Todo, h]
  · intro h hl
    have h2 : ¬ id < 0 := not_lt.2 h
    simp [inmemService.Todo, h2, hl]
  · intro t h hl
    have h2 : ¬ id < 0 := not_lt.2 h
    simp [inmemService.Todo, h2, hl]

/-- C6: for every store state, integer `id` and description `d`,
`UpdateTodo(id, d)` fails with `ErrTodoNotFound` if and only if no todo is
stored under `id`, and then leaves the store unchanged; otherwise it returns no
error and changes only the description of that todo: its ID and `Completed`
flag, every other entry, the set of keys and the next-ID counter stay as they
were. -/
theorem updateTodo_effect (s : inmemService) (id : Int) (d : String) :
    ((s.UpdateTodo id d).2 = some GoError.ErrTodoNotFound ↔ mapLookup s.todos id = none) ∧
      ((s.UpdateTodo id d).2 ≠ none ↔ mapLookup s.todos id = none) ∧
      (mapLookup s.todos id = none → (s.UpdateTodo id d).1 = s) ∧
      (∀ t : Todo, mapLookup s.todos id = some t →
        (s.UpdateTodo id d).2 = none ∧
        (s.UpdateTodo id d).1.nextID = s.nextID ∧
        mapLookup (s.UpdateTodo id d).1.todos id =
          some { ID := t.ID, Description := d, Completed := t.Completed } ∧
        (∀ k : Int, k ≠ id →
          mapLookup (s.UpdateTodo id d).1.todos k = mapLookup s.todos k) ∧
        (s.UpdateTodo id d).1.keys = s.keys) := by
  cases hl : mapLookup s.todos id with
  | none => simp [inmemService.UpdateTodo, hl]
  | some t0 =>
    refine ⟨by simp [inmemService.UpdateTodo, hl], by simp [inmemService.UpdateTodo, hl],
      by simp, ?_⟩
    intro t ht
    have e : t0 = t := Option.some.inj ht
    subst e
    simp only [inmemService.UpdateTodo, hl]
    refine ⟨trivial, trivial, mapLookup_mapStore_same _ _ _, ?_, ?_⟩
    · intro k hk
      exact mapLookup_mapStore_other _ _ _ _ hk
    · exact keys_mapStore_of_lookup _ _ t0 _ hl

/-- C7: for every store state, integer `id` and boolean `c`,
`SetCompletedStatus(id, c)` fails with `ErrTodoNotFound` if and only if no todo
is stored under `id`, and then leaves the store unchanged; otherwise it returns
no error and changes only the `Completed` flag of that todo: its ID and
description, every other entry, the set of keys and the next-ID counter stay as
they were.  On a fresh store, `CreateTodo("buy milk")`, then
`SetCompletedStatus(1, true)`, then `Todo(1)` gives the todo with ID 1,
description "buy milk" and `Completed = true`. -/
theorem setCompletedStatus_effect (s : inmemService) (id : Int) (c : Bool) :
    ((s.SetCompletedStatus id c).2 = some GoError.ErrTodoNotFound ↔
        mapLookup s.todos id = none) ∧
      ((s.SetCompletedStatus id c).2 ≠ none ↔ mapLookup s.todos id = none) ∧
      (mapLookup s.todos id = none → (s.SetCompletedStatus id c).1 = s) ∧
      (∀ t : Todo, mapLookup s.todos id = some t →
        (s.SetCompletedStatus id c).2 = none ∧
        (s.SetCompletedStatus id c).1.nextID = s.nextID ∧
        mapLookup (s.SetCompletedStatus id c).1.todos id =
          some { ID := t.ID, Description := t.Description, Completed := c } ∧
        (∀ k : Int, k ≠ id →
          mapLookup (s.SetCompletedStatus id c).1.todos k = mapLookup s.todos k) ∧
        (s.SetCompletedStatus id c).1.keys = s.keys) ∧
      (((NewInmemService.CreateTodo "buy milk").1.SetCompletedStatus 1 true).1.Todo 1 =
        ({ ID := 1, Description := "buy milk", Completed := true }, none)) := by
  cases hl : mapLookup s.todos id with
  | none =>
    simp [inmemService.SetCompletedStatus, hl]
    rfl
  | some t0 =>
    refine ⟨by simp [inmemService.SetCompletedStatus, hl],
      by simp [inmemService.SetCompletedStatus, hl], by simp, ?_, rfl⟩
    intro t ht
    have e : t0 = t := Option.some.inj ht
    subst e
    simp only [inmemService.SetCompletedStatus, hl]
    refine ⟨trivial, trivial, mapLookup_mapStore_same _ _ _, ?_, ?_⟩
    · intro k hk
      exact mapLookup_mapStore_other _ _ _ _ hk
    · exact keys_mapStore_of_lookup _ _ t0 _ hl

/-! ## Theorems: the encoders -/

mutual
theorem GoError.eq_of_same : ∀ (a b : GoError), GoError.same a b = true → a = b
  | .ErrInvalidID, b, h => by cases b <;> simp_all [GoError.same]
  | .ErrTodoNotFound, b, h => by cases b <;> simp_all [GoError.same]
  | .errBadRouting, b, h => by cases b <;> simp_all [GoError.same]
  | .foreign m1, b, h => by cases b <;> simp_all [GoError.same]
  | .wrap m1 e1, b, h => by
    cases b <;> simp_all [GoError.same]
    exact GoError.eq_of_same _ _ h.2
  | .join m1 l1, b, h => by
    cases b <;> simp_all [GoError.same]
    exact GoError.eq_of_sameList _ _ h.2
  | .withIs m1 a1 u1, b, h => by
    cases b <;> simp_all [GoError.same]
    exact ⟨GoError.eq_of_sameList _ _ h.1.2, GoError.eq_of_sameList _ _ h.2⟩
theorem GoError.eq_of_sameList :
    ∀ (a b : List GoError), GoError.sameList a b = true → a = b
  | [], b, h => by cases b <;> simp_all [GoError.sameList]
  | a :: as, b, h => by
    cases b <;> simp_all [GoError.sameList]
    exact ⟨GoError.eq_of_same _ _ h.1, GoError.eq_of_sameList _ _ h.2⟩
end

mutual
theorem GoError.same_refl : ∀ (a : GoError), GoError.same a a = true
  | .ErrInvalidID => by simp [GoError.same]
  | .ErrTodoNotFound => by simp [GoError.same]
  | .errBadRouting => by simp [GoError.same]
  | .foreign m1 => by simp [GoError.same]
  | .wrap m1 e1 => by simp [GoError.same, GoError.same_refl e1]
  | .join m1 l1 => by simp [GoError.same, GoError.sameList_refl l1]
  | .withIs m1 a1 u1 => by
    simp [GoError.same, GoError.sameList_refl a1, GoError.sameList_refl u1]
theorem GoError.sameList_refl : ∀ (a : List GoError), GoError.sameList a a = true
  | [] => by simp [GoError.sameList]
  | a :: as => by simp [GoError.sameList, GoError.same_refl a, GoError.sameList_refl as]
end

/-- The comparison `GoError.same` is equality of the modelled error values. -/
theorem GoError.same_iff (a b : GoError) : GoError.same a b = true ↔ a = b :=
  ⟨GoError.eq_of_same a b, fun h => h ▸ GoError.same_refl a⟩

theorem encodeError_fresh (e : GoError) :
    encodeError e ResponseWriter.fresh =
      { header := [("Content-Type", "application/json; charset=utf-8")],
        code := some (errorCode e),
        body := [[("error", JsonValue.string e.Error)]] } := by
  simp [encodeError, ResponseWriter.fresh, ResponseWriter.setHeader, ResponseWriter.WriteHeader,
    ResponseWriter.Encode]

theorem errorCode_cases (e : GoError) :
    (errorCode e = 400 ↔ errorsIs e GoError.ErrInvalidID = true) ∧
      (errorCode e = 404 ↔
        (errorsIs e GoError.ErrInvalidID = false ∧
          errorsIs e GoError.ErrTodoNotFound = true)) ∧
      (errorCode e = 500 ↔
        (errorsIs e GoError.ErrInvalidID = false ∧
          errorsIs e GoError.ErrTodoNotFound = false)) := by
  cases h1 : errorsIs e GoError.ErrInvalidID <;>
    cases h2 : errorsIs e GoError.ErrTodoNotFound <;>
    simp [errorCode, h1, h2, StatusBadRequest, StatusNotFound, StatusInternalServerError]

/-- C8, as stated, fails: for the error `errors.Join(ErrInvalidID,
ErrTodoNotFound)` both tests of the `switch` are true, so the cases of the
claim are not mutually exclusive, and the status written is 400 although the
error is `ErrTodoNotFound`, for which the claim says 404. -/
theorem encodeError_joined_sentinels :
    errorsIs (GoError.join "invalid id, must be non-negative\ntodo not found"
        [GoError.ErrInvalidID, GoError.ErrTodoNotFound]) GoError.ErrInvalidID = true ∧
      errorsIs (GoError.join "invalid id, must be non-negative\ntodo not found"
        [GoError.ErrInvalidID, GoError.ErrTodoNotFound]) GoError.ErrTodoNotFound = true ∧
      (encodeError (GoError.join "invalid id, must be non-negative\ntodo not found"
        [GoError.ErrInvalidID, GoError.ErrTodoNotFound]) ResponseWriter.fresh).code =
          some 400 ∧
      (encodeError (GoError.join "invalid id, must be non-negative\ntodo not found"
        [GoError.ErrInvalidID, GoError.ErrTodoNotFound]) ResponseWriter.fresh).code ≠
          some 404 := by
  decide

/-- C8, amended (writing to the writer a handler is given, on which nothing was
sent yet): for every error `e` given to the error encoder the first matching
case of the `switch` decides the status: it is 400 exactly when
`errors.Is(e, ErrInvalidID)`; 404 exactly when that test fails and
`errors.Is(e, ErrTodoNotFound)`; 500 exactly when both tests fail (decode
failures and `errBadRouting` among them).  The status is always one of the
three, and the body is one object whose "error" field is the message of `e`. -/
theorem encodeError_first_match (e : GoError) :
    ((encodeError e ResponseWriter.fresh).code = some 400 ↔
        errorsIs e GoError.ErrInvalidID = true) ∧
      ((encodeError e ResponseWriter.fresh).code = some 404 ↔
        (errorsIs e GoError.ErrInvalidID = false ∧
          errorsIs e GoError.ErrTodoNotFound = true)) ∧
      ((encodeError e ResponseWriter.fresh).code = some 500 ↔
        (errorsIs e GoError.ErrInvalidID = false ∧
          errorsIs e GoError.ErrTodoNotFound = false)) ∧
      ((encodeError e ResponseWriter.fresh).code = some 400 ∨
        (encodeError e ResponseWriter.fresh).code = some 404 ∨
        (encodeError e ResponseWriter.fresh).code = some 500) ∧
      (encodeError e ResponseWriter.fresh).body = [[("error", JsonValue.string e.Error)]] ∧
      (encodeError GoError.ErrInvalidID ResponseWriter.fresh).code = some 400 ∧
      (encodeError GoError.ErrTodoNotFound ResponseWriter.fresh).code = some 404 ∧
      (encodeError GoError.errBadRouting ResponseWriter.fresh).code = some 500 ∧
      (∀ msg : String,
        (encodeError (GoError.foreign msg) ResponseWriter.fresh).code = some 500) ∧
      (StatusBadRequest = 400 ∧ StatusNotFound = 404 ∧ StatusInternalServerError = 500) := by
  have hc := errorCode_cases e
  have hcode : (encodeError e ResponseWriter.fresh).code = some (errorCode e) := by
    rw [encodeError_fresh]
  refine ⟨?_, ?_, ?_, ?_, ?_, ?_, ?_, ?_, ?_, ⟨rfl, rfl, rfl⟩⟩
  · rw [hcode, Option.some.injEq]; exact hc.1
  · rw [hcode, Option.some.injEq]; exact hc.2.1
  · rw [hcode, Option.some.injEq]; exact hc.2.2
  · rw [hcode]
    cases h1 : errorsIs e GoError.ErrInvalidID <;>
      cases h2 : errorsIs e GoError.ErrTodoNotFound <;>
      simp [errorCode, h1, h2, StatusBadRequest, StatusNotFound, StatusInternalServerError]
  · rw [encodeError_fresh]
  · rw [encodeError_fresh]; rfl
  · rw [encodeError_fresh]; rfl
  · rw [encodeError_fresh]; rfl
  · intro msg
    rw [encodeError_fresh]; rfl

/-- C9, as stated, fails: for the `todosResponse` with a nil error and an empty
list, `encodeResponse` writes status 200 and the empty object; the body has no
"todos" field. -/
theorem encodeResponse_empty_todos_omitted :
    (Response.todosResponse [] none).error = none ∧
      (encodeResponse ResponseWriter.fresh (Response.todosResponse [] none)).1.code =
        some 200 ∧
      (encodeResponse ResponseWriter.fresh (Response.todosResponse [] none)).1.body = [[]] ∧
      (encodeResponse ResponseWriter.fresh (Response.todosResponse [] none)).1.body.map
        (fun obj => jsonField obj "todos") = [none] :=
  ⟨rfl, rfl, rfl, rfl⟩

/-- C9, amended (writing to the writer a handler is given, on which nothing was
sent yet): with a nil error, `encodeResponse` writes status 200 and one
object: the todo under "todo" for a `todoResponse`; for a `todosResponse` the
list under "todos" when the list is not empty and the empty object when it is;
the empty object for an `errorResponse`.  With a non-nil error `e`, for each of
the three response types, it writes what `encodeError` writes: the status
chosen for `e` and one object whose only field is "error" with the message of
`e`, and nothing of the payload.  `encodeResponse` itself returns no error. -/
theorem encodeResponse_cases (t : Todo) (ts : List Todo) (e : GoError) :
    encodeResponse ResponseWriter.fresh (Response.todoResponse t none) =
        ({ header := [("Content-Type", "application/json; charset=utf-8")],
           code := some 200,
           body := [[("todo", JsonValue.todo t)]] }, none) ∧
      encodeResponse ResponseWriter.fresh (Response.todosResponse ts none) =
        ({ header := [("Content-Type", "application/json; charset=utf-8")],
           code := some 200,
           body := [if ts = [] then [] else [("todos", JsonValue.todos ts)]] }, none) ∧
      encodeResponse ResponseWriter.fresh (Response.errorResponse none) =
        ({ header := [("Content-Type", "application/json; charset=utf-8")],
           code := some 200,
           body := [[]] }, none) ∧
      (∀ r : Response, r.error = some e →
        encodeResponse ResponseWriter.fresh r =
          ({ header := [("Content-Type", "application/json; charset=utf-8")],
             code := some (errorCode e),
             body := [[("error", JsonValue.string e.Error)]] }, none)) ∧
      encodeResponse ResponseWriter.fresh (Response.todoResponse t (some e)) =
        (encodeError e ResponseWriter.fresh, none) ∧
      encodeResponse ResponseWriter.fresh (Response.todosResponse ts (some e)) =
        (encodeError e ResponseWriter.fresh, none) ∧
      encodeResponse ResponseWriter.fresh (Response.errorResponse (some e)) =
        (encodeError e ResponseWriter.fresh, none) := by
  refine ⟨?_, ?_, ?_, ?_, rfl, rfl, rfl⟩
  · simp [encodeResponse, Response.error, Response.marshal, omitemptyError,
      ResponseWriter.fresh, ResponseWriter.setHeader, ResponseWriter.WriteHeader,
      ResponseWriter.Encode, StatusOK]
  · cases ts <;>
    simp [encodeResponse, Response.error, Response.marshal, omitemptyError,
      ResponseWriter.fresh, ResponseWriter.setHeader, ResponseWriter.WriteHeader,
      ResponseWriter.Encode, StatusOK]
  · simp [encodeResponse, Response.error, Response.marshal,
      ResponseWriter.fresh, ResponseWriter.setHeader, ResponseWriter.WriteHeader,
      ResponseWriter.Encode, StatusOK]
  · intro r hr
    simp only [encodeResponse, hr, encodeError_fresh]

/-! ## Theorems: goroutines calling `CreateTodo` concurrently -/

theorem list_split_at {α : Type} (l : List α) (i : Nat) (g : α) (h : l[i]? = some g) :
    ∃ pre post, l = pre ++ g :: post ∧ ∀ g2, l.set i g2 = pre ++ g2 :: post := by
  induction l generalizing i with
  | nil => simp at h
  | cons a rest ih =>
    cases i with
    | zero =>
      simp at h
      exact ⟨[], rest, by simp [h], by intro g2; simp⟩
    | succ j =>
      simp at h
      obtain ⟨pre, post, h1, h2⟩ := ih j h
      exact ⟨a :: pre, post, by simp [h1], by intro g2; simp [h2]⟩

theorem pairwise_replace {α : Type} (R : α → α → Prop) (pre post : List α) (g g2 : α)
    (h : (pre ++ g :: post).Pairwise R)
    (h1 : ∀ a ∈ pre, R a g2) (h2 : ∀ b ∈ post, R g2 b) :
    (pre ++ g2 :: post).Pairwise R := by
  rw [List.pairwise_append] at h ⊢
  obtain ⟨hp, hq, hx⟩ := h
  rw [List.pairwise_cons] at hq ⊢
  refine ⟨hp, ⟨h2, hq.2⟩, ?_⟩
  intro a ha b hb
  rcases List.mem_cons.1 hb with e | hb2
  · rw [e]; exact h1 a ha
  · exact hx a ha b (List.mem_cons_of_mem _ hb2)

theorem pairwise_split {α : Type} (R : α → α → Prop) (pre post : List α) (g : α)
    (h : (pre ++ g :: post).Pairwise R) :
    (∀ a ∈ pre, R a g) ∧ (∀ b ∈ post, R g b) := by
  rw [List.pairwise_append, List.pairwise_cons] at h
  exact ⟨fun a ha => h.2.2 a ha g (List.mem_cons_self _ _), h.2.1.1⟩

theorem goroutineOK_of_not_holding (n0 n n2 : Nat) (s s2 : inmemService) (a : Goroutine)
    (hnh : a.pc.holdsLock = false) (hle : n ≤ n2)
    (hlook : ∀ k : Int, k ≤ (n : Int) → mapLookup s2.todos k = mapLookup s.todos k)
    (h : GoroutineOK n0 n s a) : GoroutineOK n0 n2 s2 a := by
  obtain ⟨d, pc, id⟩ := a
  cases pc <;> simp [GoroutineOK, Pc.holdsLock] at hnh h ⊢
  refine ⟨h.1, ?_, ?_⟩
  · have : (n : Int) ≤ (n2 : Int) := by exact_mod_cast hle
    omega
  · rw [hlook _ h.2.1]; exact h.2.2

theorem others_not_holding (pre post : List Goroutine) (g : Goroutine)
    (h : (pre ++ g :: post).Pairwise
      (fun a b => ¬ (a.pc.holdsLock = true ∧ b.pc.holdsLock = true)))
    (hg : g.pc.holdsLock = true) :
    ∀ a, a ∈ pre ∨ a ∈ post → a.pc.holdsLock = false := by
  obtain ⟨h1, h2⟩ := pairwise_split _ pre post g h
  intro a ha
  rcases ha with ha | ha
  · have := h1 a ha
    cases hh : a.pc.holdsLock <;> simp_all
  · have := h2 a ha
    cases hh : a.pc.holdsLock <;> simp_all

theorem mem_replace {α : Type} (pre post : List α) (g a : α) (h : a ∈ pre ++ g :: post) :
    a = g ∨ (a ∈ pre ∨ a ∈ post) := by
  rw [List.mem_append, List.mem_cons] at h
  tauto

theorem countP_replace {α : Type} (p : α → Bool) (pre post : List α) (g g2 : α)
    (h : p g2 = p g) : (pre ++ g2 :: post).countP p = (pre ++ g :: post).countP p := by
  simp [List.countP_append, List.countP_cons, h]

/-- A goroutine takes the mutex. -/
theorem sharedInv_lock (s0 : inmemService) (n0 n : Nat) (svc : inmemService)
    (pre post : List Goroutine) (d : String) (id : Int)
    (h : SharedInv s0 n0 n ⟨false, svc, pre ++ ⟨d, Pc.lock, id⟩ :: post⟩) :
    SharedInv s0 n0 n ⟨true, svc, pre ++ ⟨d, Pc.readID, id⟩ :: post⟩ := by
  obtain ⟨hn, hkeys, hids, hold, hunl, _, hexcl, hdist, hok⟩ := h
  obtain ⟨hnext, hnone⟩ := hunl rfl
  have hoth : ∀ a, a ∈ pre ∨ a ∈ post → a.pc.holdsLock = false := by
    intro a ha
    apply hnone
    simp only [List.mem_append, List.mem_cons]
    tauto
  refine ⟨?_, hkeys, hids, hold, ?_, ?_, ?_, ?_, ?_⟩
  · rw [hn]; congr 1
    exact (countP_replace (fun g : Goroutine => g.pc.created) pre post ⟨d, Pc.lock, id⟩
      ⟨d, Pc.readID, id⟩ rfl).symm
  · intro hf; cases hf
  · intro _
    exact ⟨⟨d, Pc.readID, id⟩, by simp, rfl⟩
  · refine pairwise_replace _ pre post _ _ hexcl ?_ ?_
    · intro a ha hc
      have := hoth a (Or.inl ha)
      simp [this] at hc
    · intro b hb hc
      have := hoth b (Or.inr hb)
      simp [this] at hc
  · refine pairwise_replace _ pre post _ _ hdist ?_ ?_
    · intro a _ _ hc
      simp [Pc.created] at hc
    · intro b _ hc
      simp [Pc.created] at hc
  · intro a ha
    rcases mem_replace pre post _ a ha with e | ha2
    · subst e
      simpa [GoroutineOK] using hnext
    · apply hok
      simp only [List.mem_append, List.mem_cons]
      tauto

theorem locked_of_holding (s0 : inmemService) (n0 n : Nat) (locked : Bool)
    (svc : inmemService) (pre post : List Goroutine) (g : Goroutine)
    (h : SharedInv s0 n0 n ⟨locked, svc, pre ++ g :: post⟩)
    (hg : g.pc.holdsLock = true) : locked = true := by
  cases locked with
  | true => rfl
  | false =>
    have := (h.2.2.2.2.1 rfl).2 g (by simp)
    rw [hg] at this
    cases this

/-- The lock holder evaluates `return s.nextID`. -/
theorem sharedInv_readID (s0 : inmemService) (n0 n : Nat) (locked : Bool)
    (svc : inmemService) (pre post : List Goroutine) (d : String) (id : Int)
    (h : SharedInv s0 n0 n ⟨locked, svc, pre ++ ⟨d, Pc.readID, id⟩ :: post⟩) :
    SharedInv s0 n0 n ⟨locked, svc, pre ++ ⟨d, Pc.incrID, svc.generateID.1⟩ :: post⟩ := by
  have hlt := locked_of_holding s0 n0 n locked svc pre post _ h rfl
  subst hlt
  obtain ⟨hn, hkeys, hids, hold, _, _, hexcl, hdist, hok⟩ := h
  have hoth := others_not_holding pre post _ hexcl rfl
  have hg : GoroutineOK n0 n svc ⟨d, Pc.readID, id⟩ := hok _ (by simp)
  refine ⟨?_, hkeys, hids, hold, ?_, ?_, ?_, ?_, ?_⟩
  · rw [hn]; congr 1
    exact (countP_replace (fun g : Goroutine => g.pc.created) pre post ⟨d, Pc.readID, id⟩
      ⟨d, Pc.incrID, svc.generateID.1⟩ rfl).symm
  · intro hf; cases hf
  · intro _
    exact ⟨⟨d, Pc.incrID, svc.generateID.1⟩, by simp, rfl⟩
  · refine pairwise_replace _ pre post _ _ hexcl ?_ ?_
    · intro a ha hc
      have := hoth a (Or.inl ha)
      simp [this] at hc
    · intro b hb hc
      have := hoth b (Or.inr hb)
      simp [this] at hc
  · refine pairwise_replace _ pre post _ _ hdist ?_ ?_
    · intro a _ _ hc
      simp [Pc.created] at hc
    · intro b _ hc
      simp [Pc.created] at hc
  · intro a ha
    rcases mem_replace pre post _ a ha with e | ha2
    · subst e
      simp only [GoroutineOK] at hg ⊢
      exact ⟨hg, hg⟩
    · apply hok
      simp only [List.mem_append, List.mem_cons]
      tauto

/-- The lock holder runs the deferred `s.nextID++`. -/
theorem sharedInv_incrID (s0 : inmemService) (n0 n : Nat) (locked : Bool)
    (svc : inmemService) (pre post : List Goroutine) (d : String) (id : Int)
    (h : SharedInv s0 n0 n ⟨locked, svc, pre ++ ⟨d, Pc.incrID, id⟩ :: post⟩) :
    SharedInv s0 n0 n ⟨locked, svc.generateID.2, pre ++ ⟨d, Pc.store, id⟩ :: post⟩ := by
  have hlt := locked_of_holding s0 n0 n locked svc pre post _ h rfl
  subst hlt
  obtain ⟨hn, hkeys, hids, hold, _, _, hexcl, hdist, hok⟩ := h
  have hoth := others_not_holding pre post _ hexcl rfl
  have hg : GoroutineOK n0 n svc ⟨d, Pc.incrID, id⟩ := hok _ (by simp)
  refine ⟨?_, hkeys, hids, hold, ?_, ?_, ?_, ?_, ?_⟩
  · rw [hn]; congr 1
    exact (countP_replace (fun g : Goroutine => g.pc.created) pre post ⟨d, Pc.incrID, id⟩
      ⟨d, Pc.store, id⟩ rfl).symm
  · intro hf; cases hf
  · intro _
    exact ⟨⟨d, Pc.store, id⟩, by simp, rfl⟩
  · refine pairwise_replace _ pre post _ _ hexcl ?_ ?_
    · intro a ha hc
      have := hoth a (Or.inl ha)
      simp [this] at hc
    · intro b hb hc
      have := hoth b (Or.inr hb)
      simp [this] at hc
  · refine pairwise_replace _ pre post _ _ hdist ?_ ?_
    · intro a _ _ hc
      simp [Pc.created] at hc
    · intro b _ hc
      simp [Pc.created] at hc
  · intro a ha
    rcases mem_replace pre post _ a ha with e | ha2
    · subst e
      simp only [GoroutineOK, inmemService.generateID] at hg ⊢
      refine ⟨?_, hg.2⟩
      rw [hg.1]; ring
    · have ha3 : a ∈ pre ++ ⟨d, Pc.incrID, id⟩ :: post := by
        simp only [List.mem_append, List.mem_cons]
        tauto
      exact goroutineOK_of_not_holding n0 n n svc _ a (hoth a ha2) (Nat.le_refl _)
        (fun _ _ => rfl) (hok a ha3)

/-- The lock holder executes `s.todos[todo.ID] = todo`. -/
theorem sharedInv_store (s0 : inmemService) (n0 n : Nat) (locked : Bool)
    (svc : inmemService) (pre post : List Goroutine) (d : String) (id : Int)
    (h : SharedInv s0 n0 n ⟨locked, svc, pre ++ ⟨d, Pc.store, id⟩ :: post⟩) :
    SharedInv s0 n0 (n + 1)
      ⟨locked, { svc with todos := (mapStore svc.todos id ⟨id, d, false⟩) },
        pre ++ ⟨d, Pc.unlock, id⟩ :: post⟩ := by
  have hlt := locked_of_holding s0 n0 n locked svc pre post _ h rfl
  subst hlt
  obtain ⟨hn, hkeys, hids, hold, _, _, hexcl, hdist, hok⟩ := h
  have hoth := others_not_holding pre post _ hexcl rfl
  have hg : GoroutineOK n0 n svc ⟨d, Pc.store, id⟩ := hok _ (by simp)
  simp only [GoroutineOK] at hg
  obtain ⟨hnx, hid⟩ := hg
  subst hid
  have hk : svc.todos.map Prod.fst = idsUpTo n := hkeys
  have hnone : mapLookup svc.todos ((n : Int) + 1) = none := by
    rw [mapLookup_eq_none_iff, hk, mem_idsUpTo]
    omega
  have happ := mapStore_of_lookup_none svc.todos ((n : Int) + 1)
    { ID := (n : Int) + 1, Description := d, Completed := false } hnone
  have hn0 : n0 ≤ n := by omega
  have hlook : ∀ k : Int, k ≤ (n : Int) →
      mapLookup (mapStore svc.todos ((n : Int) + 1)
        { ID := (n : Int) + 1, Description := d, Completed := false }) k =
        mapLookup svc.todos k := by
    intro k hk2
    exact mapLookup_mapStore_other _ _ _ _ (by omega)
  have hcre : ∀ a, a ∈ pre ∨ a ∈ post → a.pc.created = true → a.todoID ≤ (n : Int) := by
    intro a ha hc
    have ha3 : a ∈ pre ++ ⟨d, Pc.store, (n : Int) + 1⟩ :: post := by
      simp only [List.mem_append, List.mem_cons]
      tauto
    have h1 := hok a ha3
    have h2 := hoth a ha
    obtain ⟨d2, pc2, id2⟩ := a
    cases pc2 <;> simp [GoroutineOK, Pc.holdsLock, Pc.created] at h1 h2 hc ⊢
    exact h1.2.1
  refine ⟨?_, ?_, ?_, ?_, ?_, ?_, ?_, ?_, ?_⟩
  · simp only [List.countP_append, List.countP_cons, Pc.created] at hn ⊢
    simp at hn ⊢
    omega
  · show (mapStore svc.todos ((n : Int) + 1) _).map Prod.fst = idsUpTo (n + 1)
    rw [happ, List.map_append, hk, idsUpTo_succ]
    rfl
  · intro kv hkv
    have hkv2 : kv ∈ mapStore svc.todos ((n : Int) + 1)
        { ID := (n : Int) + 1, Description := d, Completed := false } := hkv
    rw [happ, List.mem_append] at hkv2
    rcases hkv2 with h1 | h1
    · exact hids kv h1
    · simp at h1
      simp [h1]
  · intro k hk2
    have h1 : (n0 : Int) ≤ (n : Int) := by exact_mod_cast hn0
    rw [← hold k hk2]
    exact hlook k (by omega)
  · intro hf; cases hf
  · intro _
    exact ⟨⟨d, Pc.unlock, (n : Int) + 1⟩, by simp, rfl⟩
  · refine pairwise_replace _ pre post _ _ hexcl ?_ ?_
    · intro a ha hc
      have := hoth a (Or.inl ha)
      simp [this] at hc
    · intro b hb hc
      have := hoth b (Or.inr hb)
      simp [this] at hc
  · refine pairwise_replace _ pre post _ _ hdist ?_ ?_
    · intro a ha hc _ he
      have := hcre a (Or.inl ha) hc
      simp only at he
      omega
    · intro b hb _ hc he
      have := hcre b (Or.inr hb) hc
      simp only at he
      omega
  · intro a ha
    rcases mem_replace pre post _ a ha with e | ha2
    · subst e
      simp only [GoroutineOK]
      refine ⟨?_, ?_, ?_, mapLookup_mapStore_same _ _ _⟩
      · rw [hnx]; push_cast; ring
      · have h1 : (n0 : Int) ≤ (n : Int) := by exact_mod_cast hn0
        omega
      · push_cast; omega
    · have ha3 : a ∈ pre ++ ⟨d, Pc.store, (n : Int) + 1⟩ :: post := by
        simp only [List.mem_append, List.mem_cons]
        tauto
      exact goroutineOK_of_not_holding n0 n (n + 1) svc _ a (hoth a ha2) (Nat.le_succ _)
        hlook (hok a ha3)

/-- The lock holder runs the deferred `s.mu.Unlock()` and returns. -/
theorem sharedInv_unlock (s0 : inmemService) (n0 n : Nat) (locked : Bool)
    (svc : inmemService) (pre post : List Goroutine) (d : String) (id : Int)
    (h : SharedInv s0 n0 n ⟨locked, svc, pre ++ ⟨d, Pc.unlock, id⟩ :: post⟩) :
    SharedInv s0 n0 n ⟨false, svc, pre ++ ⟨d, Pc.returned, id⟩ :: post⟩ := by
  obtain ⟨hn, hkeys, hids, hold, _, _, hexcl, hdist, hok⟩ := h
  have hoth := others_not_holding pre post _ hexcl rfl
  have hg : GoroutineOK n0 n svc ⟨d, Pc.unlock, id⟩ := hok _ (by simp)
  simp only [GoroutineOK] at hg
  obtain ⟨hd1, hd2⟩ := pairwise_split _ pre post _ hdist
  refine ⟨?_, hkeys, hids, hold, ?_, ?_, ?_, ?_, ?_⟩
  · rw [hn]; congr 1
    exact (countP_replace (fun g : Goroutine => g.pc.created) pre post ⟨d, Pc.unlock, id⟩
      ⟨d, Pc.returned, id⟩ rfl).symm
  · intro _
    refine ⟨hg.1, ?_⟩
    intro a ha
    rcases mem_replace pre post _ a ha with e | ha2
    · subst e; rfl
    · exact hoth a ha2
  · intro hf; cases hf
  · refine pairwise_replace _ pre post _ _ hexcl ?_ ?_
    · intro a ha hc
      have := hoth a (Or.inl ha)
      simp [this] at hc
    · intro b hb hc
      have := hoth b (Or.inr hb)
      simp [this] at hc
  · refine pairwise_replace _ pre post _ _ hdist ?_ ?_
    · intro a ha hc _
      exact hd1 a ha hc rfl
    · intro b hb _ hc
      exact hd2 b hb rfl hc
  · intro a ha
    rcases mem_replace pre post _ a ha with e | ha2
    · subst e
      simp only [GoroutineOK]
      exact hg.2
    · apply hok
      simp only [List.mem_append, List.mem_cons]
      tauto

theorem sharedInv_step (s0 : inmemService) (n0 n : Nat) (c : Shared) (i : Nat)
    (h : SharedInv s0 n0 n c) : ∃ n2, SharedInv s0 n0 n2 (c.step i) := by
  cases hg : c.goroutines[i]? with
  | none => exact ⟨n, by simpa [Shared.step, hg] using h⟩
  | some g =>
    obtain ⟨pre, post, hl, hset⟩ := list_split_at _ _ _ hg
    obtain ⟨locked, svc, gs⟩ := c
    simp only at hl hset hg
    subst hl
    obtain ⟨d, pc, id⟩ := g
    cases pc with
    | lock =>
      cases locked with
      | true => exact ⟨n, by simpa [Shared.step, hg] using h⟩
      | false =>
        refine ⟨n, ?_⟩
        simp only [Shared.step, hg, hset]
        exact sharedInv_lock s0 n0 n svc pre post d id h
    | readID =>
      refine ⟨n, ?_⟩
      simp only [Shared.step, hg, hset]
      exact sharedInv_readID s0 n0 n locked svc pre post d id h
    | incrID =>
      refine ⟨n, ?_⟩
      simp only [Shared.step, hg, hset]
      exact sharedInv_incrID s0 n0 n locked svc pre post d id h
    | store =>
      refine ⟨n + 1, ?_⟩
      simp only [Shared.step, hg, hset]
      exact sharedInv_store s0 n0 n locked svc pre post d id h
    | unlock =>
      refine ⟨n, ?_⟩
      simp only [Shared.step, hg, hset]
      exact sharedInv_unlock s0 n0 n locked svc pre post d id h
    | returned => exact ⟨n, by simpa [Shared.step, hg] using h⟩

theorem sharedInv_run (s0 : inmemService) (n0 : Nat) (schedule : List Nat) :
    ∀ (n : Nat) (c : Shared), SharedInv s0 n0 n c →
      ∃ n2, SharedInv s0 n0 n2 (c.run schedule) := by
  induction schedule with
  | nil => intro n c h; exact ⟨n, h⟩
  | cons i rest ih =>
    intro n c h
    obtain ⟨n1, h1⟩ := sharedInv_step s0 n0 n c i h
    exact ih n1 _ h1

theorem sharedInv_start (s0 : inmemService) (n0 : Nat) (descs : List String)
    (h : StoreInv n0 s0) : SharedInv s0 n0 n0 (Shared.start s0 descs) := by
  have hpc : ∀ g ∈ (Shared.start s0 descs).goroutines, g.pc = Pc.lock := by
    intro g hg
    simp only [Shared.start, List.mem_map] at hg
    obtain ⟨d, _, rfl⟩ := hg
    rfl
  refine ⟨?_, h.2.1, h.2.2, fun _ _ => rfl, ?_, ?_, ?_, ?_, ?_⟩
  · have : (Shared.start s0 descs).goroutines.countP (fun g => g.pc.created) = 0 := by
      rw [List.countP_eq_zero]
      intro g hg
      simp [hpc g hg, Pc.created]
    omega
  · intro _
    refine ⟨h.1, ?_⟩
    intro g hg
    simp [hpc g hg, Pc.holdsLock]
  · intro hf; cases hf
  · apply List.pairwise_of_forall_mem_list
    intro a ha b _ hc
    simp [hpc a ha, Pc.holdsLock] at hc
  · apply List.pairwise_of_forall_mem_list
    intro a ha b _ hc
    simp [hpc a ha, Pc.created] at hc
  · intro g hg
    simp [GoroutineOK, hpc g hg]

theorem step_descs (c : Shared) (i : Nat) :
    (c.step i).goroutines.map Goroutine.desc = c.goroutines.map Goroutine.desc := by
  cases hg : c.goroutines[i]? with
  | none => simp [Shared.step, hg]
  | some g =>
    obtain ⟨pre, post, hl, hset⟩ := list_split_at _ _ _ hg
    obtain ⟨d, pc, id⟩ := g
    cases pc <;> simp only [Shared.step, hg, hset] <;> (try split) <;> simp [hl]

theorem run_descs (schedule : List Nat) :
    ∀ c : Shared, (c.run schedule).goroutines.map Goroutine.desc =
      c.goroutines.map Goroutine.desc := by
  induction schedule with
  | nil => intro c; rfl
  | cons i rest ih =>
    intro c
    exact (ih (c.step i)).trans (step_descs c i)

theorem run_run (c : Shared) (xs ys : List Nat) : (c.run xs).run ys = c.run (xs ++ ys) := by
  simp [Shared.run, List.foldl_append]

theorem remaining_eq_zero_iff (gs : List Goroutine) :
    (gs.map (fun g => g.pc.remaining)).sum = 0 ↔ ∀ g ∈ gs, g.pc = Pc.returned := by
  induction gs with
  | nil => simp
  | cons g rest ih =>
    simp only [List.map_cons, List.sum_cons, Nat.add_eq_zero_iff, ih, List.mem_cons,
      forall_eq_or_imp]
    constructor
    · rintro ⟨h1, h2⟩
      refine ⟨?_, h2⟩
      obtain ⟨d, pc, id⟩ := g
      cases pc <;> simp [Pc.remaining] at h1 ⊢
    · rintro ⟨h1, h2⟩
      exact ⟨by simp [h1, Pc.remaining], h2⟩

theorem step_remaining (c : Shared) (i : Nat) (g : Goroutine)
    (hg : c.goroutines[i]? = some g) (hne : g.pc ≠ Pc.returned)
    (hen : g.pc = Pc.lock → c.locked = false) :
    (c.step i).remaining + 1 = c.remaining := by
  obtain ⟨pre, post, hl, hset⟩ := list_split_at _ _ _ hg
  obtain ⟨d, pc, id⟩ := g
  unfold Shared.remaining
  cases pc with
  | lock =>
    have hf : c.locked = false := hen rfl
    simp only [Shared.step, hg, hset, hf]
    rw [hl]
    simp [Pc.remaining]
    omega
  | readID =>
    simp only [Shared.step, hg, hset]
    rw [hl]
    simp [Pc.remaining]
    omega
  | incrID =>
    simp only [Shared.step, hg, hset]
    rw [hl]
    simp [Pc.remaining]
    omega
  | store =>
    simp only [Shared.step, hg, hset]
    rw [hl]
    simp [Pc.remaining]
    omega
  | unlock =>
    simp only [Shared.step, hg, hset]
    rw [hl]
    simp [Pc.remaining]
    omega
  | returned => exact absurd rfl hne

theorem exists_progress (s0 : inmemService) (n0 n : Nat) (c : Shared)
    (h : SharedInv s0 n0 n c) (hr : c.remaining ≠ 0) :
    ∃ i, (c.step i).remaining + 1 = c.remaining := by
  cases hlk : c.locked with
  | true =>
    obtain ⟨g, hmem, hh⟩ := h.2.2.2.2.2.1 hlk
    obtain ⟨i, hi⟩ := List.getElem?_of_mem hmem
    refine ⟨i, step_remaining c i g hi ?_ ?_⟩
    · intro e
      rw [e] at hh
      cases hh
    · intro e
      rw [e] at hh
      cases hh
  | false =>
    have hnone := (h.2.2.2.2.1 hlk).2
    have hex : ∃ g ∈ c.goroutines, g.pc ≠ Pc.returned := by
      by_contra hall
      push_neg at hall
      exact hr ((remaining_eq_zero_iff c.goroutines).2 hall)
    obtain ⟨g, hmem, hne⟩ := hex
    obtain ⟨i, hi⟩ := List.getElem?_of_mem hmem
    exact ⟨i, step_remaining c i g hi hne (fun _ => hlk)⟩

theorem exists_completion (s0 : inmemService) (n0 : Nat) :
    ∀ (k n : Nat) (c : Shared), SharedInv s0 n0 n c → c.remaining = k →
      ∃ more : List Nat, ∀ g ∈ (c.run more).goroutines, g.pc = Pc.returned := by
  intro k
  induction k with
  | zero =>
    intro n c _ hk
    exact ⟨[], (remaining_eq_zero_iff c.goroutines).1 hk⟩
  | succ k ih =>
    intro n c h hk
    obtain ⟨i, hi⟩ := exists_progress s0 n0 n c h (by omega)
    obtain ⟨n1, h1⟩ := sharedInv_step s0 n0 n c i h
    obtain ⟨more, hm⟩ := ih n1 (c.step i) h1 (by omega)
    exact ⟨i :: more, hm⟩

/-- C10: for every number of goroutines calling `CreateTodo` concurrently on one
store (any store reachable from a fresh one) and every interleaving of their
statements: no two of the created todos share an ID; every created todo is
stored under its own ID, which was not in the store before; the store holds
exactly as many additional todos as goroutines have created theirs, the old
ones untouched; once all calls have returned that is one additional todo per
call, the counter has advanced by the number of calls and the mutex is free;
and from every interleaving the calls can all still return. -/
theorem concurrent_createTodo (s0 : inmemService) (descs : List String)
    (schedule : List Nat) (h : Reachable s0) :
    ((Shared.start s0 descs).run schedule).goroutines.map Goroutine.desc = descs ∧
      ((Shared.start s0 descs).run schedule).goroutines.Pairwise
        (fun a b => a.pc.created = true → b.pc.created = true → a.todoID ≠ b.todoID) ∧
      (∀ g ∈ ((Shared.start s0 descs).run schedule).goroutines, g.pc.created = true →
        mapLookup ((Shared.start s0 descs).run schedule).service.todos g.todoID =
            some { ID := g.todoID, Description := g.desc, Completed := false } ∧
          mapLookup s0.todos g.todoID = none) ∧
      ((Shared.start s0 descs).run schedule).service.todos.length =
        s0.todos.length +
          ((Shared.start s0 descs).run schedule).goroutines.countP (fun g => g.pc.created) ∧
      (∀ k : Int, mapLookup s0.todos k ≠ none →
        mapLookup ((Shared.start s0 descs).run schedule).service.todos k =
          mapLookup s0.todos k) ∧
      ((∀ g ∈ ((Shared.start s0 descs).run schedule).goroutines, g.pc = Pc.returned) →
        ((Shared.start s0 descs).run schedule).service.todos.length =
            s0.todos.length + descs.length ∧
          ((Shared.start s0 descs).run schedule).service.keys =
            idsUpTo (s0.todos.length + descs.length) ∧
          ((Shared.start s0 descs).run schedule).service.nextID =
            s0.nextID + (descs.length : Int) ∧
          ((Shared.start s0 descs).run schedule).locked = false) ∧
      (∃ more : List Nat,
        ∀ g ∈ ((Shared.start s0 descs).run (schedule ++ more)).goroutines,
          g.pc = Pc.returned) := by
  obtain ⟨n0, hs0⟩ := storeInv_of_reachable s0 h
  obtain ⟨n, hinv⟩ := sharedInv_run s0 n0 schedule n0 _ (sharedInv_start s0 n0 descs hs0)
  have hdescs : ((Shared.start s0 descs).run schedule).goroutines.map Goroutine.desc = descs := by
    rw [run_descs]
    simp [Shared.start, Function.comp_def]
  have hcomp : ∃ more : List Nat,
      ∀ g ∈ ((Shared.start s0 descs).run (schedule ++ more)).goroutines,
        g.pc = Pc.returned := by
    obtain ⟨more, hm⟩ := exists_completion s0 n0 _ n _ hinv rfl
    exact ⟨more, by rw [← run_run]; exact hm⟩
  refine ⟨hdescs, ?_, ?_, ?_, ?_, ?_, hcomp⟩ <;>
    generalize (Shared.start s0 descs).run schedule = c at hinv hdescs ⊢ <;>
    clear hcomp
  all_goals
    obtain ⟨hn, hkeys, hids, hold, hunl, hlk, hexcl, hdist, hok⟩ := hinv
    have hk0 : s0.todos.map Prod.fst = idsUpTo n0 := hs0.2.1
    have hlen0 : s0.todos.length = n0 := by
      have := congrArg List.length hk0
      simpa [idsUpTo_length] using this
    have hk : c.service.todos.map Prod.fst = idsUpTo n := hkeys
    have hlen : c.service.todos.length = n := by
      have := congrArg List.length hk
      simpa [idsUpTo_length] using this
  · exact hdist
  · intro g hg hc
    have h1 := hok g hg
    obtain ⟨d, pc, id⟩ := g
    cases pc <;> simp [Pc.created] at hc
    · simp only [GoroutineOK] at h1
      refine ⟨h1.2.2.2, ?_⟩
      rw [mapLookup_eq_none_iff, hk0, mem_idsUpTo]
      have := h1.2.1
      simp only at this ⊢
      omega
    · simp only [GoroutineOK] at h1
      refine ⟨h1.2.2, ?_⟩
      rw [mapLookup_eq_none_iff, hk0, mem_idsUpTo]
      have := h1.1
      simp only at this ⊢
      omega
  · rw [hlen, hlen0, hn]
  · intro k hk2
    apply hold
    rw [Ne, mapLookup_eq_none_iff, hk0, mem_idsUpTo, not_not] at hk2
    exact hk2.2
  · intro hall
    have hcount : c.goroutines.countP (fun g => g.pc.created) = descs.length := by
      have h1 : c.goroutines.countP (fun g => g.pc.created) = c.goroutines.length := by
        rw [List.countP_eq_length]
        intro g hg
        simp [hall g hg, Pc.created]
      have h2 := congrArg List.length hdescs
      rw [List.length_map] at h2
      omega
    have hfree : c.locked = false := by
      cases hl : c.locked with
      | false => rfl
      | true =>
        obtain ⟨g, hg, hh⟩ := hlk hl
        rw [hall g hg] at hh
        cases hh
    have hn2 : n = s0.todos.length + descs.length := by omega
    refine ⟨by omega, ?_, ?_, hfree⟩
    · rw [hkeys, hn2]
    · rw [(hunl hfree).1, hs0.1, hn, hcount]
      push_cast
      ring

theorem concurrent_createTodo_witness :
    Reachable (NewInmemService.run [Call.CreateTodo "a"]) ∧
      (∀ g ∈ ((Shared.start (NewInmemService.run [Call.CreateTodo "a"]) ["x", "y"]).run
          [0, 1, 0, 1, 0, 0, 1, 0, 1, 1, 1, 1, 1]).goroutines, g.pc = Pc.returned) ∧
      ((Shared.start (NewInmemService.run [Call.CreateTodo "a"]) ["x", "y"]).run
          [0, 1, 0, 1, 0, 0, 1, 0, 1, 1, 1, 1, 1]).service.todos.length = 1 + 2 :=
  ⟨⟨[Call.CreateTodo "a"], rfl⟩, by decide,
    ((concurrent_createTodo (NewInmemService.run [Call.CreateTodo "a"]) ["x", "y"]
      [0, 1, 0, 1, 0, 0, 1, 0, 1, 1, 1, 1, 1] ⟨[Call.CreateTodo "a"], rfl⟩).2.2.2.2.2.1
        (by decide)).1⟩

end GoTodo
